import Mathlib

/-!
# TR3 LAN protocol: frame builder, stream parser and client

A shallow embedding of `src/src/protocol.cpp` and `src/include/tr3/protocol.hpp`
(`Frame::encode`, `Frame::calc_sum`, `Parser::push`, `Parser::take`,
`Parser::take_raw`, `Parser::reset`, `cmd::check_rom_version`) and of the two
exchanges of `src/src/client.cpp` (`Client::transact`, `Client::receive_only`),
followed by the theorems about them.

Conventions of the embedding:
* `uint8_t` is `Byte = Fin 256`; `std::vector<uint8_t>` is `List Byte`;
* `size_t` and `uint32_t` are `Nat` with the wrap-around written out where the
  source does arithmetic that could wrap (`--need_`, `sum += b`);
* a member function that mutates the parser returns the new parser next to its
  result; a `throw` is an `Except.error` and leaves the parser as it was.
-/

namespace tr3

/-- The C++ type `uint8_t`. -/
abbrev Byte := Fin 256

/-- Conversion `static_cast<uint8_t>(n)` of an unsigned integer: keep the low 8 bits. -/
def toByte (n : Nat) : Byte := ⟨n % 256, Nat.mod_lt n (by decide)⟩

/-- Start of text, `0x02`. -/
def STX : Byte := 0x02
/-- End of text, `0x03`. -/
def ETX : Byte := 0x03
/-- Carriage return, `0x0D`. -/
def CR : Byte := 0x0D

/-- Header bytes: STX, ADDR, CMD, LEN. -/
def HEADER_LEN : Nat := 4
/-- Footer bytes: ETX, SUM, CR. -/
def FOOTER_LEN : Nat := 3

/-- The struct `Frame`: an outgoing command. -/
structure Frame where
  addr : Byte
  cmd : Byte
  data : List Byte
deriving DecidableEq, Repr

/-- The struct `Decoded`: the fields of a received frame. -/
structure Decoded where
  addr : Byte
  cmd : Byte
  data : List Byte
deriving DecidableEq, Repr

/-- The function `Frame::calc_sum`: a `uint32_t` accumulator (wrapping modulo `2^32`) runs over
the bytes, and the result is `static_cast<uint8_t>(sum & 0xFF)`. -/
def Frame.calc_sum (stx_to_etx : List Byte) : Byte :=
  let sum : Nat := stx_to_etx.foldl (fun s b => (s + b.val) % 2 ^ 32) 0
  toByte (sum &&& 0xFF)

/-- The function `Frame::encode`: the vector `out` is built by successive `push_back` / `insert`;
the length byte is `static_cast<uint8_t>(data.size())`. There is no size check and no `throw`. -/
def Frame.encode (f : Frame) : List Byte :=
  let out : List Byte := []
  let out := out ++ [STX]
  let out := out ++ [f.addr]
  let out := out ++ [f.cmd]
  let out := out ++ [toByte f.data.length]
  let out := out ++ f.data
  let out := out ++ [ETX]
  let sum := Frame.calc_sum out
  let out := out ++ [sum]
  let out := out ++ [CR]
  out

/-- The enum `Parser::State`. -/
inductive State where
  | SEEK_STX
  | HEADER
  | PAYLOAD
  | FOOTER
deriving DecidableEq, Repr

/-- The private fields of class `Parser`: `st_`, `buf_` and `need_`. -/
structure Parser where
  st : State
  buf : List Byte
  need : Nat
deriving DecidableEq, Repr

/-- A default-constructed `Parser`, by the default member initialisers: `st_ = SEEK_STX`,
empty `buf_`, `need_ = 0`. -/
def Parser.fresh : Parser := ⟨State.SEEK_STX, [], 0⟩

/-- The function `Parser::reset`. -/
def Parser.reset (_p : Parser) : Parser := ⟨State.SEEK_STX, [], 0⟩

/-- Pre-decrement `--n` of a 64-bit `size_t`: `0` wraps around to `2^64 - 1`. On every value a
`size_t` can hold this is `(n + (2^64 - 1)) % 2^64` (`dec_size_t_eq_mod`). -/
def dec_size_t (n : Nat) : Nat := if n = 0 then 2 ^ 64 - 1 else n - 1

/-- The function `Parser::push`. The byte is appended to `buf_` first, then the `switch` on `st_`
runs. Every indexed read of `buf_` sits behind the size guard of its branch, so the default of
`getD` is never what is read. `len + FOOTER_LEN` is at most `258` and cannot wrap. -/
def Parser.push (p : Parser) (byte : Byte) : Parser × Bool :=
  let buf := p.buf ++ [byte]
  match p.st with
  | State.SEEK_STX =>
    if byte = STX then
      (⟨State.HEADER, [byte], HEADER_LEN - 1⟩, false)
    else
      (⟨p.st, [], p.need⟩, false)
  | State.HEADER =>
    let need := dec_size_t p.need
    if need = 0 then
      if buf.length < HEADER_LEN then
        (Parser.reset ⟨p.st, buf, need⟩, false)
      else
        let len : Byte := buf.getD 3 0
        (⟨State.PAYLOAD, buf, len.val + FOOTER_LEN⟩, false)
    else
      (⟨p.st, buf, need⟩, false)
  | State.PAYLOAD =>
    let need := dec_size_t p.need
    if need = 0 then
      let sz := buf.length
      if sz < HEADER_LEN + FOOTER_LEN then
        (Parser.reset ⟨p.st, buf, need⟩, false)
      else
        let cr_ok : Bool := buf.getD (sz - 1) 0 == CR
        let etx_ok : Bool := buf.getD (sz - 3) 0 == ETX
        if cr_ok && etx_ok then
          let sum_expect : Byte := buf.getD (sz - 2) 0
          let sum_calc : Byte := Frame.calc_sum (buf.take (sz - 2))
          if sum_expect = sum_calc then
            (⟨State.FOOTER, buf, need⟩, true)
          else
            (Parser.reset ⟨p.st, buf, need⟩, false)
        else
          (Parser.reset ⟨p.st, buf, need⟩, false)
    else
      (⟨p.st, buf, need⟩, false)
  | State.FOOTER =>
    (Parser.reset ⟨p.st, buf, p.need⟩, false)

/-- The two `throw std::runtime_error` sites of `Parser::take`. -/
inductive TakeError where
  | frame_incomplete
  | length_mismatch
deriving DecidableEq, Repr

/-- The function `Parser::take`: either a `Decoded` and the reset parser, or a thrown
`runtime_error` with the parser left untouched. -/
def Parser.take (p : Parser) : Except TakeError Decoded × Parser :=
  if p.buf.length < HEADER_LEN + FOOTER_LEN then
    (Except.error TakeError.frame_incomplete, p)
  else
    let addr : Byte := p.buf.getD 1 0
    let cmd : Byte := p.buf.getD 2 0
    let data_len : Nat := (p.buf.getD 3 0).val
    let data_beg : Nat := HEADER_LEN
    let data_end : Nat := data_beg + data_len
    if p.buf.length < data_end + FOOTER_LEN then
      (Except.error TakeError.length_mismatch, p)
    else
      let data := (p.buf.drop data_beg).take (data_end - data_beg)
      (Except.ok ⟨addr, cmd, data⟩, p.reset)

/-- The function `Parser::take_raw`: a copy of `buf_`, then `reset()`. -/
def Parser.take_raw (p : Parser) : List Byte × Parser :=
  (p.buf, p.reset)

/-- The builder `cmd::check_rom_version(addr = 0x00)`. -/
def cmd.check_rom_version (addr : Byte) : List Byte :=
  Frame.encode ⟨addr, 0x4F, [0x90]⟩

/-- Bytes pushed one after another, as the receive loops of `Client` do with the bytes they read:
the parser after the last byte and the value `push` returned for each byte. -/
def Parser.feed (p : Parser) : List Byte → Parser × List Bool
  | [] => (p, [])
  | b :: bs =>
    let r := p.push b
    let rest := Parser.feed r.1 bs
    (rest.1, r.2 :: rest.2)

/-- Bytes pushed one after another with `take_raw()` called each time `push` returns true (the
pattern of the receive loops in `Client`, continued over the whole input): per byte, `none` when
`push` returned false and `some raw` when it returned true and `take_raw()` gave `raw`. -/
def Parser.drain_raw (p : Parser) : List Byte → Parser × List (Option (List Byte))
  | [] => (p, [])
  | b :: bs =>
    let r := p.push b
    if r.2 then
      let t := r.1.take_raw
      let rest := Parser.drain_raw t.2 bs
      (rest.1, some t.1 :: rest.2)
    else
      let rest := Parser.drain_raw r.1 bs
      (rest.1, none :: rest.2)

/-- Bytes pushed one after another with `take()` called each time `push` returns true: per byte,
`none` when `push` returned false and `some r` when it returned true and `take()` gave `r`. -/
def Parser.drain_take (p : Parser) : List Byte → Parser × List (Option (Except TakeError Decoded))
  | [] => (p, [])
  | b :: bs =>
    let r := p.push b
    if r.2 then
      let t := r.1.take
      let rest := Parser.drain_take t.2 bs
      (rest.1, some t.1 :: rest.2)
    else
      let rest := Parser.drain_take r.1 bs
      (rest.1, none :: rest.2)

/-- The unbounded sum of the byte values, modulo 256, as a byte. -/
def sum_mod_256 (l : List Byte) : Byte := toByte (l.map Fin.val).sum

/-- A complete checksum-valid wire frame: first byte STX, length `LEN + 7` with `LEN` the 4th
byte, third-from-last byte ETX, last byte CR, second-from-last byte the sum of all earlier bytes
modulo 256. -/
def WireFrame (buf : List Byte) : Prop :=
  buf.head? = some STX ∧
  buf.length = (buf.getD 3 0).val + 7 ∧
  buf.getD (buf.length - 3) 0 = ETX ∧
  buf.getD (buf.length - 1) 0 = CR ∧
  buf.getD (buf.length - 2) 0 = sum_mod_256 (buf.take (buf.length - 2))

instance (buf : List Byte) : Decidable (WireFrame buf) := by
  unfold WireFrame
  infer_instance

/-- The states a parser can be in: a default-constructed one, and whatever `push`, `take`,
`take_raw` and `reset` make of such a state, in any order. -/
inductive Reachable : Parser → Prop where
  | fresh : Reachable Parser.fresh
  | push (p : Parser) (b : Byte) : Reachable p → Reachable (p.push b).1
  | take (p : Parser) : Reachable p → Reachable p.take.2
  | take_raw (p : Parser) : Reachable p → Reachable p.take_raw.2
  | reset (p : Parser) : Reachable p → Reachable p.reset

/-- The relation between `st_`, `buf_` and `need_` that every operation keeps. -/
def Parser.Inv (p : Parser) : Prop :=
  match p.st with
  | State.SEEK_STX => p.buf = [] ∧ p.need = 0
  | State.HEADER =>
    p.buf.head? = some STX ∧ 1 ≤ p.need ∧ p.need ≤ 3 ∧ p.buf.length + p.need = 4
  | State.PAYLOAD =>
    p.buf.head? = some STX ∧ 4 ≤ p.buf.length ∧ 1 ≤ p.need ∧
      p.buf.length + p.need = (p.buf.getD 3 0).val + 7
  | State.FOOTER => WireFrame p.buf ∧ p.need = 0

/-- The frame that `cmd::check_rom_version()` builds with its default address `0x00`. -/
def rom_frame : Frame := ⟨0x00, 0x4F, [0x90]⟩

/-- A fresh parser that has been fed all of the ROM-version request `02 00 4F 01 90 03 E5 0D`
but its final CR. -/
def before_last_byte : Parser := (Parser.fresh.feed [0x02, 0x00, 0x4F, 0x01, 0x90, 0x03, 0xE5]).1

/-- A fresh parser in the middle of a payload with seven bytes buffered: the header announces
four data bytes and three of them have arrived. -/
def mid_payload : Parser := (Parser.fresh.feed [0x02, 0x00, 0x4F, 0x04, 0x11, 0x22, 0x33]).1

/-- The request that `cmd::set_command_mode()` builds with its default address `0x00`. -/
def mode_frame : Frame := ⟨0x00, 0x4E, [0x00, 0x00, 0x00, 0x1C]⟩

/-! ## The client (`src/src/client.cpp`, the `_WIN32` branch)

The socket is modelled by what its calls return: the outcomes of the successive `recv` calls
are a list, and `send_ok i` says whether the `i`-th `send` call (counted from 0) succeeds. What
the functions write to `std::cout` is left out. -/

/-- What one call `recv(sock_, &c, 1, 0)` returns: `n == 1` with the byte read, `n == 0`
(connection closed), `SOCKET_ERROR` with `WSAETIMEDOUT`, or `SOCKET_ERROR` with another code. -/
inductive Recv where
  | byte (c : Byte)
  | closed
  | timed_out
  | failed
deriving DecidableEq, Repr

/-- The struct `Client::Reply`. -/
structure Client.Reply where
  cmd : Byte
  data : List Byte
  raw : List Byte
deriving DecidableEq, Repr

/-- The `throw NetError(...)` sites of `transact` and `receive_only`, by their message:
`"send() failed"`, `"send(retry) failed"`, `"recv timeout"`, `"recv timeout (receive_only)"`. -/
inductive NetError where
  | send_failed
  | send_retry_failed
  | recv_timeout
  | recv_timeout_receive_only
deriving DecidableEq, Repr

/-- How a call of `transact` or `receive_only` ends: it returns a `Reply`, it throws a
`NetError`, the `take()` of the second parser throws its `runtime_error`, or, when the given
receive outcomes are used up, it is still waiting inside `recv`. -/
inductive Outcome where
  | reply (r : Client.Reply)
  | net_error (e : NetError)
  | runtime_error (e : TakeError)
  | blocked
deriving DecidableEq, Repr

/-- The tail of `transact` and `receive_only`: `Parser p2; for (auto b : raw) p2.push(b);
Decoded d = p2.take(); return Reply{ d.cmd, d.data, std::move(raw) };`. -/
def Client.decode_raw (raw : List Byte) : Outcome :=
  let p2 := (Parser.fresh.feed raw).1
  match p2.take.1 with
  | Except.ok d => Outcome.reply ⟨d.cmd, d.data, raw⟩
  | Except.error e => Outcome.runtime_error e

/-- The receive loop `for (;;)` of `transact`, one `recv` outcome per round: the parser `p`, the
counter `retries` and the frames handed to `send` so far are the loop state. A byte goes to
`p.push`; on true the raw frame is taken and decoded. On a closure or timeout `retries-- > 0`
decides between a resend of `frame` followed by `continue` (the parser `p` is the same object
as before) and `throw NetError("recv timeout")`. Any other error falls through to the next
round. -/
def Client.transact_loop (send_ok : Nat → Bool) (frame : List Byte) :
    Parser → Int → List (List Byte) → List Recv → Outcome × List (List Byte)
  | _, _, sent, [] => (Outcome.blocked, sent)
  | p, retries, sent, Recv.byte c :: rest =>
    let r := p.push c
    if r.2 then
      let raw := r.1.take_raw.1
      (Client.decode_raw raw, sent)
    else
      Client.transact_loop send_ok frame r.1 retries sent rest
  | p, retries, sent, Recv.closed :: rest =>
    if retries > 0 then
      if send_ok sent.length then
        Client.transact_loop send_ok frame p (retries - 1) (sent ++ [frame]) rest
      else
        (Outcome.net_error NetError.send_retry_failed, sent ++ [frame])
    else
      (Outcome.net_error NetError.recv_timeout, sent)
  | p, retries, sent, Recv.timed_out :: rest =>
    if retries > 0 then
      if send_ok sent.length then
        Client.transact_loop send_ok frame p (retries - 1) (sent ++ [frame]) rest
      else
        (Outcome.net_error NetError.send_retry_failed, sent ++ [frame])
    else
      (Outcome.net_error NetError.recv_timeout, sent)
  | p, retries, sent, Recv.failed :: rest =>
    Client.transact_loop send_ok frame p retries sent rest

/-- The function `Client::transact(frame, retries)`: the first `send`, then the receive loop
with a default-constructed parser. The result is how the call ends and the frames handed to
`send`, in order. -/
def Client.transact (send_ok : Nat → Bool) (frame : List Byte) (retries : Int)
    (recvs : List Recv) : Outcome × List (List Byte) :=
  if send_ok 0 then
    Client.transact_loop send_ok frame Parser.fresh retries [frame] recvs
  else
    (Outcome.net_error NetError.send_failed, [frame])

/-- The receive loop `for (;;)` of `receive_only`: as in `transact`, but a closure or timeout
throws at once. -/
def Client.receive_only_loop : Parser → List Recv → Outcome
  | _, [] => Outcome.blocked
  | p, Recv.byte c :: rest =>
    let r := p.push c
    if r.2 then
      let raw := r.1.take_raw.1
      Client.decode_raw raw
    else
      Client.receive_only_loop r.1 rest
  | _, Recv.closed :: _ => Outcome.net_error NetError.recv_timeout_receive_only
  | _, Recv.timed_out :: _ => Outcome.net_error NetError.recv_timeout_receive_only
  | p, Recv.failed :: rest => Client.receive_only_loop p rest

/-- The function `Client::receive_only`: there is no `send` in it, so the list of frames handed
to `send` is empty. Its parameter `timeout_ms` is unused in the source. -/
def Client.receive_only (recvs : List Recv) : Outcome × List (List Byte) :=
  (Client.receive_only_loop Parser.fresh recvs, [])

/-- A transport on which every `send` succeeds. -/
def sends_succeed : Nat → Bool := fun _ => true

/-- The bytes among a list of `recv` outcomes, in order. -/
def received_bytes : List Recv → List Byte
  | [] => []
  | Recv.byte c :: rest => c :: received_bytes rest
  | _ :: rest => received_bytes rest

/-- A fresh parser that has been fed the whole ROM-version request and has not been emptied. -/
def completed_rom : Parser := (Parser.fresh.feed rom_frame.encode).1

/-- A byte sequence with an STX in it after which a fresh parser is seeking again: a frame
candidate `02 00 4F 00 03 00 0D` whose checksum byte is wrong. -/
def rejected_candidate : List Byte := [0x02, 0x00, 0x4F, 0x00, 0x03, 0x00, 0x0D]

/-- A reply that agrees with its raw bytes: the raw bytes are a wire frame, the command is
`raw[2]`, the data has `raw[3]` bytes and is `raw[4 .. 4 + raw[3])`. -/
def Client.Reply.matches_raw (rep : Client.Reply) : Prop :=
  WireFrame rep.raw ∧
  rep.cmd = rep.raw.getD 2 0 ∧
  rep.data.length = (rep.raw.getD 3 0).val ∧
  rep.data = (rep.raw.drop 4).take (rep.raw.getD 3 0).val

/-- Receive outcomes in which all of the ROM-version frame but its final CR arrives, with one
hard error in between. -/
def almost_all_received : List Recv :=
  [Recv.byte 0x02, Recv.byte 0x00, Recv.byte 0x4F, Recv.failed, Recv.byte 0x01, Recv.byte 0x90,
    Recv.byte 0x03, Recv.byte 0xE5]

/-! ## Arithmetic of the checksum and of the counters -/

theorem foldl_u32_mod (l : List Byte) (s : Nat) :
    l.foldl (fun s b => (s + b.val) % 2 ^ 32) s % 256 = (s + (l.map Fin.val).sum) % 256 := by
  induction l generalizing s with
  | nil => simp
  | cons b bs ih =>
    simp only [List.foldl_cons, List.map_cons, List.sum_cons]
    rw [ih]
    omega

theorem calc_sum_eq (l : List Byte) : Frame.calc_sum l = toByte (l.map Fin.val).sum := by
  unfold Frame.calc_sum toByte
  apply Fin.ext
  simp only
  have h : ∀ x : Nat, x &&& 0xFF = x % 256 := fun x => Nat.and_pow_two_sub_one_eq_mod x 8
  rw [h, Nat.mod_mod, foldl_u32_mod]
  simp

/-- The decrement is subtraction modulo `2^64` on the values a `size_t` can hold. -/
theorem dec_size_t_eq_mod (n : Nat) (h : n < 2 ^ 64) :
    dec_size_t n = (n + (2 ^ 64 - 1)) % 2 ^ 64 := by
  unfold dec_size_t
  split <;> omega

theorem dec_size_t_succ (n : Nat) : dec_size_t (n + 1) = n := by
  simp [dec_size_t]

theorem push_payload_more (buf : List Byte) (n : Nat) (b : Byte) :
    Parser.push ⟨State.PAYLOAD, buf, n + 2⟩ b = (⟨State.PAYLOAD, buf ++ [b], n + 1⟩, false) := by
  have hd : dec_size_t (n + 2) = n + 1 := dec_size_t_succ (n + 1)
  simp [Parser.push, hd]

theorem feed_append (p : Parser) (xs ys : List Byte) :
    p.feed (xs ++ ys) = (((p.feed xs).1.feed ys).1, (p.feed xs).2 ++ ((p.feed xs).1.feed ys).2) := by
  induction xs generalizing p with
  | nil => simp [Parser.feed]
  | cons x xs ih => simp [Parser.feed, ih]

theorem feed_singleton (p : Parser) (b : Byte) :
    p.feed [b] = ((p.push b).1, [(p.push b).2]) := by
  simp only [Parser.feed]

theorem feed_payload_more (xs : List Byte) (buf : List Byte) (n : Nat) :
    Parser.feed ⟨State.PAYLOAD, buf, n + xs.length + 1⟩ xs
      = (⟨State.PAYLOAD, buf ++ xs, n + 1⟩, List.replicate xs.length false) := by
  induction xs generalizing buf with
  | nil => simp [Parser.feed]
  | cons x xs ih =>
    have e : n + (x :: xs).length + 1 = (n + xs.length) + 2 := by simp; omega
    rw [e, Parser.feed, push_payload_more]
    simp only
    rw [ih (buf ++ [x])]
    simp [List.replicate_succ]

theorem getD_append_add (xs ys : List Byte) (k : Nat) (d : Byte) :
    (xs ++ ys).getD (xs.length + k) d = ys.getD k d := by
  induction xs with
  | nil => simp
  | cons x xs ih =>
    have e : (x :: xs).length + k = (xs.length + k) + 1 := by simp; omega
    rw [e]
    simpa using ih

theorem push_payload_last (body : List Byte) (e s c : Byte) (h : 4 ≤ body.length) :
    Parser.push ⟨State.PAYLOAD, body ++ [e, s], 1⟩ c
      = if c = CR ∧ e = ETX ∧ s = Frame.calc_sum (body ++ [e]) then
          (⟨State.FOOTER, body ++ [e, s, c], 0⟩, true)
        else (Parser.fresh, false) := by
  have hd : dec_size_t 1 = 0 := by decide
  have hlen : (body ++ [e, s] ++ [c]).length = body.length + 3 := by simp
  have hb : body ++ [e, s] ++ [c] = body ++ [e, s, c] := by simp
  have h1 : (body ++ [e, s] ++ [c]).getD (body.length + 3 - 1) 0 = c := by
    rw [hb, show body.length + 3 - 1 = body.length + 2 by omega, getD_append_add]; rfl
  have h3 : (body ++ [e, s] ++ [c]).getD (body.length + 3 - 3) 0 = e := by
    rw [hb, show body.length + 3 - 3 = body.length + 0 by omega, getD_append_add]; rfl
  have h2 : (body ++ [e, s] ++ [c]).getD (body.length + 3 - 2) 0 = s := by
    rw [hb, show body.length + 3 - 2 = body.length + 1 by omega, getD_append_add]; rfl
  have ht : (body ++ [e, s] ++ [c]).take (body.length + 3 - 2) = body ++ [e] := by
    simp [List.take_append_eq_append_take]
  have hsz : ¬ body.length + 3 < HEADER_LEN + FOOTER_LEN := by simp [HEADER_LEN, FOOTER_LEN]; omega
  simp only [Parser.push, hd, hlen, h1, h2, h3, ht, hsz]
  by_cases hc : c = CR <;> by_cases he : e = ETX <;>
    by_cases hs : s = Frame.calc_sum (body ++ [e]) <;>
    simp [hc, he, hs, Parser.reset, Parser.fresh]

theorem encode_eq (f : Frame) :
    f.encode = [STX, f.addr, f.cmd, toByte f.data.length] ++ f.data ++
      [ETX, Frame.calc_sum ([STX, f.addr, f.cmd, toByte f.data.length] ++ f.data ++ [ETX]), CR] := by
  simp [Frame.encode]

theorem toByte_val (n : Nat) (h : n ≤ 255) : (toByte n).val = n := by
  simp only [toByte]
  omega

theorem push_fresh_stx : Parser.fresh.push STX = (⟨State.HEADER, [STX], 3⟩, false) := by
  rfl

theorem push_header_more (buf : List Byte) (n : Nat) (b : Byte) :
    Parser.push ⟨State.HEADER, buf, n + 2⟩ b = (⟨State.HEADER, buf ++ [b], n + 1⟩, false) := by
  have hd : dec_size_t (n + 2) = n + 1 := dec_size_t_succ (n + 1)
  simp [Parser.push, hd]

theorem push_header_last (buf : List Byte) (b : Byte) (h : 3 ≤ buf.length) :
    Parser.push ⟨State.HEADER, buf, 1⟩ b
      = (⟨State.PAYLOAD, buf ++ [b], ((buf ++ [b]).getD 3 0).val + 3⟩, false) := by
  have hd : dec_size_t 1 = 0 := by decide
  have hsz : ¬ buf.length + 1 < 4 := by omega
  simp [Parser.push, hd, HEADER_LEN, FOOTER_LEN, hsz]

theorem feed_header (a c l : Byte) :
    Parser.fresh.feed [STX, a, c, l]
      = (⟨State.PAYLOAD, [STX, a, c, l], l.val + 3⟩, [false, false, false, false]) := by
  have e1 : Parser.fresh.push STX = (⟨State.HEADER, [STX], 3⟩, false) := push_fresh_stx
  have e2 : Parser.push ⟨State.HEADER, [STX], 3⟩ a = (⟨State.HEADER, [STX, a], 2⟩, false) :=
    push_header_more [STX] 1 a
  have e3 : Parser.push ⟨State.HEADER, [STX, a], 2⟩ c = (⟨State.HEADER, [STX, a, c], 1⟩, false) :=
    push_header_more [STX, a] 0 c
  have e4 : Parser.push ⟨State.HEADER, [STX, a, c], 1⟩ l
      = (⟨State.PAYLOAD, [STX, a, c, l], l.val + 3⟩, false) :=
    push_header_last [STX, a, c] l (by simp)
  simp only [Parser.feed, e1, e2, e3, e4]

/-- The parser on a frame-shaped input: header, `l` data bytes, three footer bytes. -/
theorem feed_candidate (a c l : Byte) (data : List Byte) (e s z : Byte)
    (hl : data.length = l.val) :
    Parser.fresh.feed ([STX, a, c, l] ++ data ++ [e, s, z])
      = if z = CR ∧ e = ETX ∧ s = Frame.calc_sum ([STX, a, c, l] ++ data ++ [e]) then
          (⟨State.FOOTER, [STX, a, c, l] ++ data ++ [e, s, z], 0⟩,
            List.replicate (l.val + 6) false ++ [true])
        else (Parser.fresh, List.replicate (l.val + 6) false ++ [false]) := by
  have hlt : l.val < 256 := l.isLt
  have hsplit : [STX, a, c, l] ++ data ++ [e, s, z]
      = [STX, a, c, l] ++ ((data ++ [e, s]) ++ [z]) := by simp
  have e1 := feed_header a c l
  have e2 : Parser.feed ⟨State.PAYLOAD, [STX, a, c, l], l.val + 3⟩ (data ++ [e, s])
      = (⟨State.PAYLOAD, [STX, a, c, l] ++ data ++ [e, s], 1⟩,
          List.replicate (l.val + 2) false) := by
    have h := feed_payload_more (data ++ [e, s]) [STX, a, c, l] 0
    have hn : 0 + (data ++ [e, s]).length + 1 = l.val + 3 := by simp [hl]
    have hm : (data ++ [e, s]).length = l.val + 2 := by simp [hl]
    rw [hn, hm] at h
    rw [h]
    simp
  have e3 := push_payload_last ([STX, a, c, l] ++ data) e s z (by simp)
  have hrep : ∀ t : Bool, [false, false, false, false] ++ (List.replicate (l.val + 2) false ++ [t])
      = List.replicate (l.val + 6) false ++ [t] := by
    intro t
    rw [show [false, false, false, false] = List.replicate 4 false from rfl,
      ← List.append_assoc, ← List.replicate_add, show 4 + (l.val + 2) = l.val + 6 by omega]
  rw [hsplit]
  simp only [feed_append Parser.fresh [STX, a, c, l] (data ++ [e, s] ++ [z]), e1]
  simp only [feed_append _ (data ++ [e, s]) [z], e2, feed_singleton, e3]
  split
  · simp only [hrep]
    simp
  · simp only [hrep]

/-- A fresh parser fed an encoded frame: false for every byte but the last, true on the last,
and the frame is what the buffer holds. -/
theorem feed_encode (f : Frame) (h : f.data.length ≤ 255) :
    Parser.fresh.feed f.encode
      = (⟨State.FOOTER, f.encode, 0⟩, List.replicate (f.data.length + 6) false ++ [true]) := by
  have hl : f.data.length = (toByte f.data.length).val := (toByte_val _ h).symm
  have hc := feed_candidate f.addr f.cmd (toByte f.data.length) f.data ETX
    (Frame.calc_sum ([STX, f.addr, f.cmd, toByte f.data.length] ++ f.data ++ [ETX])) CR hl
  rw [if_pos ⟨rfl, rfl, rfl⟩, ← encode_eq, ← hl] at hc
  exact hc

/-- The function `take` on a buffer that holds an encoded frame, whatever the other fields. -/
theorem take_encode (f : Frame) (h : f.data.length ≤ 255) (st : State) (n : Nat) :
    Parser.take ⟨st, f.encode, n⟩ = (Except.ok ⟨f.addr, f.cmd, f.data⟩, Parser.fresh) := by
  have hv := toByte_val _ h
  have hlen : f.encode.length = f.data.length + 7 := by simp [encode_eq]
  have h1 : f.encode.getD 1 0 = f.addr := by simp [encode_eq]
  have h2 : f.encode.getD 2 0 = f.cmd := by simp [encode_eq]
  have h3 : f.encode.getD 3 0 = toByte f.data.length := by simp [encode_eq]
  have hd : (f.encode.drop 4).take f.data.length = f.data := by simp [encode_eq]
  simp only [Parser.take, hlen, h1, h2, h3, hv, HEADER_LEN, FOOTER_LEN]
  rw [if_neg (by omega), if_neg (by omega)]
  simp only [Nat.add_sub_cancel_left, hd, Parser.reset, Parser.fresh]

/-- Bytes other than STX leave a fresh parser as it is. -/
theorem feed_garbage (g : List Byte) (hg : ∀ b ∈ g, b ≠ STX) :
    Parser.fresh.feed g = (Parser.fresh, List.replicate g.length false) := by
  induction g with
  | nil => rfl
  | cons x xs ih =>
    have hx : x ≠ STX := hg x (by simp)
    have hp : Parser.fresh.push x = (Parser.fresh, false) := by
      simp [Parser.push, Parser.fresh, hx]
    have ih2 := ih (fun b hb => hg b (by simp [hb]))
    simp only [Parser.feed, hp, ih2, List.length_cons, List.replicate_succ]

theorem replicate_false_snoc (n : Nat) :
    List.replicate n false ++ [false] = List.replicate (n + 1) false := by
  induction n with
  | zero => rfl
  | succ k ih => simp [List.replicate_succ, ih]

theorem set_append_add (xs ys : List Byte) (k : Nat) (v : Byte) :
    (xs ++ ys).set (xs.length + k) v = xs ++ ys.set k v := by
  induction xs with
  | nil => simp
  | cons x xs ih =>
    have e : (x :: xs).length + k = (xs.length + k) + 1 := by simp; omega
    rw [e]
    simp [ih]

/-- Replacing the SUM byte of an encoded frame, which sits at offset `|data| + 5`. -/
theorem encode_set_sum (f : Frame) (s : Byte) :
    f.encode.set (f.data.length + 5) s
      = [STX, f.addr, f.cmd, toByte f.data.length] ++ f.data ++ [ETX, s, CR] := by
  have h := set_append_add ([STX, f.addr, f.cmd, toByte f.data.length] ++ f.data)
    [ETX, Frame.calc_sum ([STX, f.addr, f.cmd, toByte f.data.length] ++ f.data ++ [ETX]), CR] 1 s
  have hl : ([STX, f.addr, f.cmd, toByte f.data.length] ++ f.data).length + 1
      = f.data.length + 5 := by simp
  rw [hl, ← encode_eq] at h
  rw [h]
  rfl

theorem encode_get_sum (f : Frame) :
    f.encode.getD (f.data.length + 5) 0
      = Frame.calc_sum ([STX, f.addr, f.cmd, toByte f.data.length] ++ f.data ++ [ETX]) := by
  have h := getD_append_add ([STX, f.addr, f.cmd, toByte f.data.length] ++ f.data)
    [ETX, Frame.calc_sum ([STX, f.addr, f.cmd, toByte f.data.length] ++ f.data ++ [ETX]), CR] 1 0
  have hl : ([STX, f.addr, f.cmd, toByte f.data.length] ++ f.data).length + 1
      = f.data.length + 5 := by simp
  rw [hl, ← encode_eq] at h
  rw [h]
  rfl

/-- A fresh parser fed an encoded frame whose SUM byte was replaced by another value: false for
every byte, and the parser is as fresh again. -/
theorem feed_bad_sum (f : Frame) (s : Byte) (h : f.data.length ≤ 255)
    (hs : s ≠ f.encode.getD (f.data.length + 5) 0) :
    Parser.fresh.feed (f.encode.set (f.data.length + 5) s)
      = (Parser.fresh, List.replicate (f.data.length + 7) false) := by
  have hl : f.data.length = (toByte f.data.length).val := (toByte_val _ h).symm
  have hc := feed_candidate f.addr f.cmd (toByte f.data.length) f.data ETX s CR hl
  rw [encode_get_sum] at hs
  rw [if_neg (fun hx => hs hx.2.2), ← encode_set_sum, ← hl] at hc
  rw [hc, replicate_false_snoc]

theorem take_raw_mk (st : State) (buf : List Byte) (n : Nat) :
    Parser.take_raw ⟨st, buf, n⟩ = (buf, Parser.fresh) := rfl

/-! ## The invariant of the parser -/

theorem exists_snoc2 (l : List Byte) (h : 2 ≤ l.length) : ∃ body e s, l = body ++ [e, s] := by
  rcases List.eq_nil_or_concat l with h0 | ⟨l1, s, h1⟩
  · subst h0
    simp at h
  · subst h1
    rcases List.eq_nil_or_concat l1 with h0 | ⟨body, e, h2⟩
    · subst h0
      simp at h
    · subst h2
      exact ⟨body, e, s, by simp⟩

theorem getD_append_lt (xs ys : List Byte) (k : Nat) (d : Byte) (h : k < xs.length) :
    (xs ++ ys).getD k d = xs.getD k d := by
  simp [List.getD_eq_getElem?_getD, List.getElem?_append_left h]

theorem head?_append_some (xs ys : List Byte) (x : Byte) (h : xs.head? = some x) :
    (xs ++ ys).head? = some x := by
  cases xs with
  | nil => simp at h
  | cons y t => simpa using h

/-- The three footer checks of `push` are what makes a buffer a wire frame. -/
theorem wireFrame_of_checks (body : List Byte) (e s c : Byte)
    (hh : body.head? = some STX) (hlen : body.length = (body.getD 3 0).val + 4)
    (hc : c = CR) (he : e = ETX) (hs : s = Frame.calc_sum (body ++ [e])) :
    WireFrame (body ++ [e, s, c]) := by
  have h4 : 3 < body.length := by omega
  have hl : (body ++ [e, s, c]).length = body.length + 3 := by simp
  have g3 : (body ++ [e, s, c]).getD 3 0 = body.getD 3 0 := getD_append_lt _ _ _ _ h4
  have i1 : (body ++ [e, s, c]).getD (body.length + 3 - 1) 0 = c := by
    rw [show body.length + 3 - 1 = body.length + 2 by omega, getD_append_add]; rfl
  have i2 : (body ++ [e, s, c]).getD (body.length + 3 - 2) 0 = s := by
    rw [show body.length + 3 - 2 = body.length + 1 by omega, getD_append_add]; rfl
  have i3 : (body ++ [e, s, c]).getD (body.length + 3 - 3) 0 = e := by
    rw [show body.length + 3 - 3 = body.length + 0 by omega, getD_append_add]; rfl
  have ht : (body ++ [e, s, c]).take (body.length + 3 - 2) = body ++ [e] := by
    have e1 : body ++ [e, s, c] = (body ++ [e]) ++ [s, c] := by simp
    have e2 : body.length + 3 - 2 = (body ++ [e]).length := by simp
    rw [e1, e2]
    exact List.take_left _ _
  unfold WireFrame
  rw [hl, g3, i1, i2, i3, ht]
  refine ⟨head?_append_some _ _ _ hh, by omega, he, hc, ?_⟩
  rw [hs, calc_sum_eq]
  rfl

theorem inv_seek (buf : List Byte) (need : Nat) :
    Parser.Inv ⟨State.SEEK_STX, buf, need⟩ ↔ (buf = [] ∧ need = 0) := Iff.rfl

theorem inv_header (buf : List Byte) (need : Nat) :
    Parser.Inv ⟨State.HEADER, buf, need⟩ ↔
      (buf.head? = some STX ∧ 1 ≤ need ∧ need ≤ 3 ∧ buf.length + need = 4) := Iff.rfl

theorem inv_payload (buf : List Byte) (need : Nat) :
    Parser.Inv ⟨State.PAYLOAD, buf, need⟩ ↔
      (buf.head? = some STX ∧ 4 ≤ buf.length ∧ 1 ≤ need ∧
        buf.length + need = (buf.getD 3 0).val + 7) := Iff.rfl

theorem inv_footer (buf : List Byte) (need : Nat) :
    Parser.Inv ⟨State.FOOTER, buf, need⟩ ↔ (WireFrame buf ∧ need = 0) := Iff.rfl

theorem inv_fresh : Parser.fresh.Inv := (inv_seek [] 0).2 ⟨rfl, rfl⟩

theorem inv_push (p : Parser) (b : Byte) (h : p.Inv) : (p.push b).1.Inv := by
  obtain ⟨st, buf, need⟩ := p
  generalize hr : Parser.push ⟨st, buf, need⟩ b = r
  cases st with
  | SEEK_STX =>
    rw [inv_seek] at h
    obtain ⟨hb0, hn0⟩ := h
    subst hb0 hn0
    by_cases hb : b = STX
    · have e : Parser.push ⟨State.SEEK_STX, [], 0⟩ b = (⟨State.HEADER, [b], 3⟩, false) := by
        simp [Parser.push, hb, HEADER_LEN]
      rw [e] at hr
      subst hr
      show Parser.Inv ⟨State.HEADER, [b], 3⟩
      rw [inv_header]
      simp [hb]
    · have e : Parser.push ⟨State.SEEK_STX, [], 0⟩ b = (⟨State.SEEK_STX, [], 0⟩, false) := by
        simp [Parser.push, hb]
      rw [e] at hr
      subst hr
      exact inv_fresh
  | HEADER =>
    rw [inv_header] at h
    obtain ⟨hh, h1, h3, hl⟩ := h
    by_cases hn : need = 1
    · subst hn
      rw [push_header_last buf b (by omega)] at hr
      subst hr
      show Parser.Inv ⟨State.PAYLOAD, buf ++ [b], ((buf ++ [b]).getD 3 0).val + 3⟩
      rw [inv_payload]
      refine ⟨head?_append_some _ _ _ hh, by simp; omega, by omega, by simp; omega⟩
    · obtain ⟨n, rfl⟩ : ∃ n, need = n + 2 := ⟨need - 2, by omega⟩
      rw [push_header_more buf n b] at hr
      subst hr
      show Parser.Inv ⟨State.HEADER, buf ++ [b], n + 1⟩
      rw [inv_header]
      refine ⟨head?_append_some _ _ _ hh, by omega, by omega, by simp; omega⟩
  | PAYLOAD =>
    rw [inv_payload] at h
    obtain ⟨hh, h4, h1, hl⟩ := h
    have hlt : (buf.getD 3 0).val < 256 := (buf.getD 3 0).isLt
    by_cases hn : need = 1
    · subst hn
      obtain ⟨body, e, s, rfl⟩ := exists_snoc2 buf (by omega)
      have hb4 : 4 ≤ body.length := by
        simp only [List.length_append, List.length_cons, List.length_nil] at h4 hl
        omega
      rw [push_payload_last body e s b hb4] at hr
      have g3 : (body ++ [e, s]).getD 3 0 = body.getD 3 0 := getD_append_lt _ _ _ _ (by omega)
      have hh2 : body.head? = some STX := by
        cases body with
        | nil => simp at hb4
        | cons y t => simpa using hh
      split at hr
      · rename_i hc
        subst hr
        show Parser.Inv ⟨State.FOOTER, body ++ [e, s, b], 0⟩
        rw [inv_footer]
        refine ⟨wireFrame_of_checks body e s b hh2 ?_ hc.1 hc.2.1 hc.2.2, rfl⟩
        rw [g3] at hl
        simp only [List.length_append, List.length_cons, List.length_nil] at hl
        omega
      · subst hr
        exact inv_fresh
    · obtain ⟨n, rfl⟩ : ∃ n, need = n + 2 := ⟨need - 2, by omega⟩
      rw [push_payload_more buf n b] at hr
      subst hr
      show Parser.Inv ⟨State.PAYLOAD, buf ++ [b], n + 1⟩
      rw [inv_payload]
      have g3 : (buf ++ [b]).getD 3 0 = buf.getD 3 0 := getD_append_lt _ _ _ _ (by omega)
      rw [g3]
      refine ⟨head?_append_some _ _ _ hh, ?_, by omega, ?_⟩
      · simp only [List.length_append, List.length_cons, List.length_nil]
        omega
      · simp only [List.length_append, List.length_cons, List.length_nil]
        omega
  | FOOTER =>
    have e : Parser.push ⟨State.FOOTER, buf, need⟩ b = (Parser.fresh, false) := by
      simp [Parser.push, Parser.reset, Parser.fresh]
    rw [e] at hr
    subst hr
    exact inv_fresh

theorem inv_take (p : Parser) (h : p.Inv) : p.take.2.Inv := by
  unfold Parser.take
  split
  · exact h
  · simp only
    split
    · exact h
    · exact inv_fresh

theorem inv_of_reachable (p : Parser) (h : Reachable p) : p.Inv := by
  induction h with
  | fresh => exact inv_fresh
  | push p b _ ih => exact inv_push p b ih
  | take p _ ih => exact inv_take p ih
  | take_raw p _ _ => exact inv_fresh
  | reset p _ _ => exact inv_fresh

theorem reachable_feed (p : Parser) (xs : List Byte) (h : Reachable p) :
    Reachable (p.feed xs).1 := by
  induction xs generalizing p with
  | nil => exact h
  | cons x xs ih => exact ih (p.push x).1 (Reachable.push p x h)

/-- The only `return true` of `push` is the one that moves to `FOOTER`. -/
theorem push_true_state (p : Parser) (b : Byte) (h : (p.push b).2 = true) :
    (p.push b).1.st = State.FOOTER ∧ (p.push b).1.buf = p.buf ++ [b] ∧ p.st = State.PAYLOAD := by
  obtain ⟨st, buf, need⟩ := p
  cases st with
  | SEEK_STX =>
    by_cases hb : b = STX <;> simp [Parser.push, hb] at h
  | HEADER =>
    simp only [Parser.push] at h
    split at h
    · split at h <;> simp at h
    · simp at h
  | PAYLOAD =>
    simp only [Parser.push] at h ⊢
    split at h
    · rename_i h0
      rw [if_pos h0]
      split at h
      · simp at h
      · rename_i h1
        rw [if_neg h1]
        split at h
        · rename_i h2
          rw [if_pos h2]
          split at h
          · rename_i h3
            rw [if_pos h3]
            simp
          · simp at h
        · simp at h
    · simp at h
  | FOOTER =>
    simp [Parser.push] at h

theorem exists_snoc3 (l : List Byte) (h : 3 ≤ l.length) :
    ∃ data e s c, l = data ++ [e, s, c] := by
  rcases List.eq_nil_or_concat l with h0 | ⟨l1, c, h1⟩
  · subst h0
    simp at h
  · subst h1
    obtain ⟨data, e, s, h2⟩ := exists_snoc2 l1 (by simp at h; omega)
    subst h2
    exact ⟨data, e, s, c, by simp⟩

theorem toByte_fin (b : Byte) : toByte b.val = b := by
  apply Fin.ext
  simp only [toByte]
  omega

/-- A wire frame is the encoding of the address, command and payload read off it. -/
theorem wireFrame_eq_encode (buf : List Byte) (h : WireFrame buf) :
    buf = Frame.encode ⟨buf.getD 1 0, buf.getD 2 0, (buf.drop 4).take (buf.getD 3 0).val⟩ := by
  obtain ⟨hh, hlen, he, hc, hs⟩ := h
  rcases buf with _ | ⟨b0, _ | ⟨b1, _ | ⟨b2, _ | ⟨b3, rest⟩⟩⟩⟩
  · simp at hlen
  · simp at hlen
  · simp at hlen
  · simp at hlen
  · have g3 : (b0 :: b1 :: b2 :: b3 :: rest).getD 3 0 = b3 := rfl
    rw [g3] at hlen ⊢
    have hrl : rest.length = b3.val + 3 := by
      simp only [List.length_cons] at hlen
      omega
    obtain ⟨data, e, s, c, rfl⟩ := exists_snoc3 rest (by omega)
    have hdl : data.length = b3.val := by
      simp only [List.length_append, List.length_cons, List.length_nil] at hrl
      omega
    have hb0 : b0 = STX := by simpa using hh
    subst hb0
    have hbuf : STX :: b1 :: b2 :: b3 :: (data ++ [e, s, c])
        = ([STX, b1, b2, b3] ++ data) ++ [e, s, c] := by simp
    have hl : (([STX, b1, b2, b3] ++ data) ++ [e, s, c]).length
        = ([STX, b1, b2, b3] ++ data).length + 3 := by simp
    have i1 : (([STX, b1, b2, b3] ++ data) ++ [e, s, c]).getD
        (([STX, b1, b2, b3] ++ data).length + 3 - 1) 0 = c := by
      rw [show ([STX, b1, b2, b3] ++ data).length + 3 - 1
        = ([STX, b1, b2, b3] ++ data).length + 2 by omega, getD_append_add]; rfl
    have i2 : (([STX, b1, b2, b3] ++ data) ++ [e, s, c]).getD
        (([STX, b1, b2, b3] ++ data).length + 3 - 2) 0 = s := by
      rw [show ([STX, b1, b2, b3] ++ data).length + 3 - 2
        = ([STX, b1, b2, b3] ++ data).length + 1 by omega, getD_append_add]; rfl
    have i3 : (([STX, b1, b2, b3] ++ data) ++ [e, s, c]).getD
        (([STX, b1, b2, b3] ++ data).length + 3 - 3) 0 = e := by
      rw [show ([STX, b1, b2, b3] ++ data).length + 3 - 3
        = ([STX, b1, b2, b3] ++ data).length + 0 by omega, getD_append_add]; rfl
    have ht : (([STX, b1, b2, b3] ++ data) ++ [e, s, c]).take
        (([STX, b1, b2, b3] ++ data).length + 3 - 2) = [STX, b1, b2, b3] ++ data ++ [e] := by
      have e1 : ([STX, b1, b2, b3] ++ data) ++ [e, s, c]
          = ([STX, b1, b2, b3] ++ data ++ [e]) ++ [s, c] := by simp
      have e2 : ([STX, b1, b2, b3] ++ data).length + 3 - 2
          = ([STX, b1, b2, b3] ++ data ++ [e]).length := by simp
      rw [e1, e2]
      exact List.take_left _ _
    rw [hbuf, hl, i1] at hc
    rw [hbuf, hl, i3] at he
    rw [hbuf, hl, i2, ht] at hs
    have hd : ((STX :: b1 :: b2 :: b3 :: (data ++ [e, s, c])).drop 4).take b3.val = data := by
      rw [← hdl]
      exact List.take_left _ _
    have g1 : (STX :: b1 :: b2 :: b3 :: (data ++ [e, s, c])).getD 1 0 = b1 := rfl
    have g2 : (STX :: b1 :: b2 :: b3 :: (data ++ [e, s, c])).getD 2 0 = b2 := rfl
    subst hc he hs
    rw [g1, g2, hd, encode_eq]
    simp only [hdl, toByte_fin]
    rw [calc_sum_eq]
    simp [sum_mod_256]

/-- An encoded frame with a payload of at most 255 bytes is a wire frame. -/
theorem wireFrame_encode (f : Frame) (h : f.data.length ≤ 255) : WireFrame f.encode := by
  have hv := toByte_val _ h
  have hb : f.encode = ([STX, f.addr, f.cmd, toByte f.data.length] ++ f.data) ++
      [ETX, Frame.calc_sum (([STX, f.addr, f.cmd, toByte f.data.length] ++ f.data) ++ [ETX]),
        CR] := encode_eq f
  rw [hb]
  refine wireFrame_of_checks _ ETX _ CR rfl ?_ rfl rfl rfl
  have g3 : ([STX, f.addr, f.cmd, toByte f.data.length] ++ f.data).getD 3 0
      = toByte f.data.length := rfl
  rw [g3, hv]
  simp only [List.length_append, List.length_cons, List.length_nil]
  omega

/-! ## Extraction -/

theorem take_mk (st : State) (buf : List Byte) (need : Nat) :
    Parser.take ⟨st, buf, need⟩
      = if buf.length < 7 then (Except.error TakeError.frame_incomplete, ⟨st, buf, need⟩)
        else if buf.length < 4 + (buf.getD 3 0).val + 3 then
          (Except.error TakeError.length_mismatch, ⟨st, buf, need⟩)
        else (Except.ok ⟨buf.getD 1 0, buf.getD 2 0, (buf.drop 4).take (buf.getD 3 0).val⟩,
          Parser.fresh) := by
  simp only [Parser.take, HEADER_LEN, FOOTER_LEN, Nat.add_sub_cancel_left, Parser.reset,
    Parser.fresh]

theorem take_of_inv (p : Parser) (h : p.Inv) :
    (p.st = State.FOOTER ∧
      p.take = (Except.ok ⟨p.buf.getD 1 0, p.buf.getD 2 0,
        (p.buf.drop 4).take (p.buf.getD 3 0).val⟩, Parser.fresh)) ∨
    (p.st ≠ State.FOOTER ∧ p.buf.length < 7 ∧
      p.take = (Except.error TakeError.frame_incomplete, p)) ∨
    (p.st = State.PAYLOAD ∧ 7 ≤ p.buf.length ∧
      p.take = (Except.error TakeError.length_mismatch, p)) := by
  obtain ⟨st, buf, need⟩ := p
  have hlt : (buf.getD 3 0).val < 256 := (buf.getD 3 0).isLt
  rw [take_mk]
  show (st = State.FOOTER ∧ _) ∨ (st ≠ State.FOOTER ∧ buf.length < 7 ∧ _) ∨
    (st = State.PAYLOAD ∧ 7 ≤ buf.length ∧ _)
  cases st with
  | SEEK_STX =>
    rw [inv_seek] at h
    obtain ⟨hb, _⟩ := h
    subst hb
    exact Or.inr (Or.inl ⟨by simp, by simp, rfl⟩)
  | HEADER =>
    rw [inv_header] at h
    have hl : buf.length < 7 := by omega
    exact Or.inr (Or.inl ⟨by simp, hl, by rw [if_pos hl]⟩)
  | PAYLOAD =>
    rw [inv_payload] at h
    by_cases hl : buf.length < 7
    · exact Or.inr (Or.inl ⟨by simp, hl, by rw [if_pos hl]⟩)
    · exact Or.inr (Or.inr ⟨rfl, by omega, by rw [if_neg hl, if_pos (by omega)]⟩)
  | FOOTER =>
    rw [inv_footer] at h
    obtain ⟨⟨_, hlen, _⟩, _⟩ := h
    exact Or.inl ⟨rfl, by rw [if_neg (by omega), if_neg (by omega)]⟩

theorem push_footer_true (p : Parser) (b : Byte) (h : (p.push b).1.st = State.FOOTER) :
    (p.push b).2 = true := by
  obtain ⟨st, buf, need⟩ := p
  cases st with
  | SEEK_STX =>
    by_cases hb : b = STX <;> simp [Parser.push, hb] at h
  | HEADER =>
    simp only [Parser.push] at h
    split at h
    · split at h <;> simp [Parser.reset] at h
    · simp at h
  | PAYLOAD =>
    simp only [Parser.push] at h ⊢
    split at h
    · rename_i h0
      rw [if_pos h0]
      split at h
      · simp [Parser.reset] at h
      · rename_i h1
        rw [if_neg h1]
        split at h
        · rename_i h2
          rw [if_pos h2]
          split at h
          · rename_i h3
            rw [if_pos h3]
          · simp [Parser.reset] at h
        · simp [Parser.reset] at h
    · simp at h
  | FOOTER =>
    simp [Parser.push, Parser.reset] at h

/-! ## Feeding a stream and extracting at each completion -/

theorem feed_length (p : Parser) (xs : List Byte) : (p.feed xs).2.length = xs.length := by
  induction xs generalizing p with
  | nil => rfl
  | cons x xs ih => simp only [Parser.feed, List.length_cons, ih]

theorem drain_raw_cons_true (p : Parser) (x : Byte) (xs : List Byte)
    (h : (p.push x).2 = true) :
    p.drain_raw (x :: xs)
      = (((p.push x).1.take_raw.2.drain_raw xs).1,
          some (p.push x).1.take_raw.1 :: ((p.push x).1.take_raw.2.drain_raw xs).2) := by
  simp only [Parser.drain_raw, h, if_true]

theorem drain_raw_cons_false (p : Parser) (x : Byte) (xs : List Byte)
    (h : (p.push x).2 = false) :
    p.drain_raw (x :: xs)
      = (((p.push x).1.drain_raw xs).1, none :: ((p.push x).1.drain_raw xs).2) := by
  simp only [Parser.drain_raw, h, Bool.false_eq_true, if_false]

theorem drain_take_cons_true (p : Parser) (x : Byte) (xs : List Byte)
    (h : (p.push x).2 = true) :
    p.drain_take (x :: xs)
      = (((p.push x).1.take.2.drain_take xs).1,
          some (p.push x).1.take.1 :: ((p.push x).1.take.2.drain_take xs).2) := by
  simp only [Parser.drain_take, h, if_true]

theorem drain_take_cons_false (p : Parser) (x : Byte) (xs : List Byte)
    (h : (p.push x).2 = false) :
    p.drain_take (x :: xs)
      = (((p.push x).1.drain_take xs).1, none :: ((p.push x).1.drain_take xs).2) := by
  simp only [Parser.drain_take, h, Bool.false_eq_true, if_false]

theorem drain_raw_append (p : Parser) (xs ys : List Byte) :
    p.drain_raw (xs ++ ys)
      = (((p.drain_raw xs).1.drain_raw ys).1,
          (p.drain_raw xs).2 ++ ((p.drain_raw xs).1.drain_raw ys).2) := by
  induction xs generalizing p with
  | nil => simp [Parser.drain_raw]
  | cons x xs ih =>
    rw [List.cons_append]
    cases hx : (p.push x).2 with
    | true => rw [drain_raw_cons_true p x _ hx, drain_raw_cons_true p x _ hx, ih]; rfl
    | false => rw [drain_raw_cons_false p x _ hx, drain_raw_cons_false p x _ hx, ih]; rfl

theorem drain_take_append (p : Parser) (xs ys : List Byte) :
    p.drain_take (xs ++ ys)
      = (((p.drain_take xs).1.drain_take ys).1,
          (p.drain_take xs).2 ++ ((p.drain_take xs).1.drain_take ys).2) := by
  induction xs generalizing p with
  | nil => simp [Parser.drain_take]
  | cons x xs ih =>
    rw [List.cons_append]
    cases hx : (p.push x).2 with
    | true => rw [drain_take_cons_true p x _ hx, drain_take_cons_true p x _ hx, ih]; rfl
    | false => rw [drain_take_cons_false p x _ hx, drain_take_cons_false p x _ hx, ih]; rfl

/-- The shape of a run whose only completion is on its last byte, split at the first byte. -/
theorem feed_cons_split (p q : Parser) (x : Byte) (xs : List Byte) (n : Nat)
    (h : p.feed (x :: xs) = (q, List.replicate n false ++ [true])) :
    (n = 0 ∧ xs = [] ∧ p.push x = (q, true)) ∨
    (∃ k, n = k + 1 ∧ (p.push x).2 = false ∧
      (p.push x).1.feed xs = (q, List.replicate k false ++ [true])) := by
  have hlen := feed_length (p.push x).1 xs
  simp only [Parser.feed, Prod.mk.injEq] at h
  obtain ⟨h1, h2⟩ := h
  cases n with
  | zero =>
    simp only [List.replicate_zero, List.nil_append, List.cons.injEq] at h2
    obtain ⟨h3, h4⟩ := h2
    rw [h4] at hlen
    have hxs : xs = [] := List.length_eq_zero.mp hlen.symm
    subst hxs
    simp only [Parser.feed] at h1
    exact Or.inl ⟨rfl, rfl, Prod.ext h1 h3⟩
  | succ k =>
    simp only [List.replicate_succ, List.cons_append, List.cons.injEq] at h2
    exact Or.inr ⟨k, rfl, h2.1, Prod.ext h1 h2.2⟩

theorem drain_raw_of_feed (xs : List Byte) (p q : Parser) (n : Nat)
    (h : p.feed xs = (q, List.replicate n false ++ [true])) :
    p.drain_raw xs = (q.take_raw.2, List.replicate n none ++ [some q.take_raw.1]) := by
  induction xs generalizing p n with
  | nil =>
    simp only [Parser.feed, Prod.mk.injEq] at h
    exact absurd h.2 (by simp)
  | cons x xs ih =>
    rcases feed_cons_split p q x xs n h with ⟨hn, hxs, hp⟩ | ⟨k, hn, hp, hrest⟩
    · subst hn hxs
      have hx : (p.push x).2 = true := by rw [hp]
      rw [drain_raw_cons_true p x [] hx, hp]
      rfl
    · subst hn
      rw [drain_raw_cons_false p x xs hp, ih _ k hrest]
      rfl

theorem drain_take_of_feed (xs : List Byte) (p q : Parser) (n : Nat)
    (h : p.feed xs = (q, List.replicate n false ++ [true])) :
    p.drain_take xs = (q.take.2, List.replicate n none ++ [some q.take.1]) := by
  induction xs generalizing p n with
  | nil =>
    simp only [Parser.feed, Prod.mk.injEq] at h
    exact absurd h.2 (by simp)
  | cons x xs ih =>
    rcases feed_cons_split p q x xs n h with ⟨hn, hxs, hp⟩ | ⟨k, hn, hp, hrest⟩
    · subst hn hxs
      have hx : (p.push x).2 = true := by rw [hp]
      rw [drain_take_cons_true p x [] hx, hp]
      rfl
    · subst hn
      rw [drain_take_cons_false p x xs hp, ih _ k hrest]
      rfl

theorem drain_raw_encode (f : Frame) (h : f.data.length ≤ 255) :
    Parser.fresh.drain_raw f.encode
      = (Parser.fresh, List.replicate (f.encode.length - 1) none ++ [some f.encode]) := by
  have hlen : f.encode.length - 1 = f.data.length + 6 := by simp [encode_eq]
  rw [drain_raw_of_feed f.encode Parser.fresh _ _ (feed_encode f h), hlen, take_raw_mk]

theorem drain_take_encode (f : Frame) (h : f.data.length ≤ 255) :
    Parser.fresh.drain_take f.encode
      = (Parser.fresh, List.replicate (f.encode.length - 1) none
          ++ [some (Except.ok ⟨f.addr, f.cmd, f.data⟩)]) := by
  have hlen : f.encode.length - 1 = f.data.length + 6 := by simp [encode_eq]
  rw [drain_take_of_feed f.encode Parser.fresh _ _ (feed_encode f h), hlen, take_encode f h]

theorem drain_raw_frames (frames : List Frame) (h : ∀ f ∈ frames, f.data.length ≤ 255) :
    Parser.fresh.drain_raw (frames.flatMap Frame.encode)
      = (Parser.fresh, frames.flatMap
          (fun f => List.replicate (f.encode.length - 1) none ++ [some f.encode])) := by
  induction frames with
  | nil => rfl
  | cons f fs ih =>
    have hf : f.data.length ≤ 255 := h f (by simp)
    have ih2 := ih (fun g hg => h g (by simp [hg]))
    have e := drain_raw_append Parser.fresh f.encode (fs.flatMap Frame.encode)
    simp only [drain_raw_encode f hf, ih2] at e
    simp only [List.flatMap_cons, e]

theorem drain_take_frames (frames : List Frame) (h : ∀ f ∈ frames, f.data.length ≤ 255) :
    Parser.fresh.drain_take (frames.flatMap Frame.encode)
      = (Parser.fresh, frames.flatMap
          (fun f => List.replicate (f.encode.length - 1) none
            ++ [some (Except.ok ⟨f.addr, f.cmd, f.data⟩)])) := by
  induction frames with
  | nil => rfl
  | cons f fs ih =>
    have hf : f.data.length ≤ 255 := h f (by simp)
    have ih2 := ih (fun g hg => h g (by simp [hg]))
    have e := drain_take_append Parser.fresh f.encode (fs.flatMap Frame.encode)
    simp only [drain_take_encode f hf, ih2] at e
    simp only [List.flatMap_cons, e]

theorem count_completions (frames : List Frame) :
    ((frames.flatMap
        (fun f => List.replicate (f.encode.length - 1) (none : Option (List Byte))
          ++ [some f.encode])).filter Option.isSome).length = frames.length := by
  induction frames with
  | nil => rfl
  | cons f fs ih =>
    simp only [List.flatMap_cons, List.filter_append, List.length_append, ih, List.length_cons]
    have h0 : ∀ n : Nat, (List.replicate n (none : Option (List Byte))).filter Option.isSome
        = [] := by
      intro n
      induction n with
      | zero => rfl
      | succ k ihk => simp [List.replicate_succ]
    rw [h0]
    simp
    omega

/-! ## The second parse of a raw frame -/

theorem wireFrame_data_length (buf : List Byte) (h : WireFrame buf) :
    ((buf.drop 4).take (buf.getD 3 0).val).length = (buf.getD 3 0).val := by
  have hlen := h.2.1
  simp only [List.length_take, List.length_drop]
  omega

/-- A wire frame fed to a fresh parser is completed by its last byte and nothing before. -/
theorem feed_wireFrame (buf : List Byte) (h : WireFrame buf) :
    Parser.fresh.feed buf
      = (⟨State.FOOTER, buf, 0⟩, List.replicate (buf.length - 1) false ++ [true]) := by
  have hd := wireFrame_data_length buf h
  have hlt : (buf.getD 3 0).val < 256 := (buf.getD 3 0).isLt
  have he := wireFrame_eq_encode buf h
  have hf := feed_encode
    ⟨buf.getD 1 0, buf.getD 2 0, (buf.drop 4).take (buf.getD 3 0).val⟩ (by rw [hd]; omega)
  have hl : buf.length - 1 = ((buf.drop 4).take (buf.getD 3 0).val).length + 6 := by
    rw [hd]
    have := h.2.1
    omega
  rw [← he] at hf
  rw [hl]
  exact hf

/-- The `take()` of a second parser that was fed a wire frame. -/
theorem second_parse (buf : List Byte) (h : WireFrame buf) :
    (Parser.fresh.feed buf).1.take
      = (Except.ok ⟨buf.getD 1 0, buf.getD 2 0, (buf.drop 4).take (buf.getD 3 0).val⟩,
          Parser.fresh) := by
  have hlt : (buf.getD 3 0).val < 256 := (buf.getD 3 0).isLt
  have hlen := h.2.1
  rw [feed_wireFrame buf h, take_mk, if_neg (by omega), if_neg (by omega)]

theorem seek_eq_fresh (p : Parser) (h : p.Inv) (hs : p.st = State.SEEK_STX) :
    p = Parser.fresh := by
  obtain ⟨st, buf, need⟩ := p
  change st = State.SEEK_STX at hs
  subst hs
  rw [inv_seek] at h
  obtain ⟨hb, hn⟩ := h
  subst hb hn
  rfl

theorem push_footer (buf : List Byte) (need : Nat) (b : Byte) :
    Parser.push ⟨State.FOOTER, buf, need⟩ b = (Parser.fresh, false) := by
  simp [Parser.push, Parser.reset, Parser.fresh]

theorem inv_length_le (p : Parser) (h : p.Inv) : p.buf.length ≤ 262 := by
  obtain ⟨st, buf, need⟩ := p
  have hlt : (buf.getD 3 0).val < 256 := (buf.getD 3 0).isLt
  show buf.length ≤ 262
  cases st with
  | SEEK_STX =>
    rw [inv_seek] at h
    rw [h.1]
    simp
  | HEADER =>
    rw [inv_header] at h
    omega
  | PAYLOAD =>
    rw [inv_payload] at h
    omega
  | FOOTER =>
    rw [inv_footer] at h
    have := h.1.2.1
    omega

/-! ## The receive loops of the client -/

theorem wire_of_push_true (p : Parser) (b : Byte) (hi : p.Inv) (ht : (p.push b).2 = true) :
    WireFrame (p.push b).1.buf := by
  have hi2 := inv_push p b hi
  obtain ⟨hst, _, _⟩ := push_true_state p b ht
  generalize (p.push b).1 = q at hi2 hst ⊢
  obtain ⟨st, buf, need⟩ := q
  change st = State.FOOTER at hst
  subst hst
  exact ((inv_footer buf need).1 hi2).1

theorem decode_raw_wire (raw : List Byte) (h : WireFrame raw) :
    Client.decode_raw raw
      = Outcome.reply ⟨raw.getD 2 0, (raw.drop 4).take (raw.getD 3 0).val, raw⟩ := by
  have e := second_parse raw h
  simp only [Client.decode_raw, e]

theorem decode_raw_encode (f : Frame) (h : f.data.length ≤ 255) :
    Client.decode_raw f.encode = Outcome.reply ⟨f.cmd, f.data, f.encode⟩ := by
  have e1 := feed_encode f h
  have e2 := take_encode f h State.FOOTER 0
  simp only [Client.decode_raw, e1, e2]

theorem matches_raw_of_wire (raw : List Byte) (h : WireFrame raw) :
    Client.Reply.matches_raw ⟨raw.getD 2 0, (raw.drop 4).take (raw.getD 3 0).val, raw⟩ :=
  ⟨h, rfl, wireFrame_data_length raw h, rfl⟩

theorem loop_nil (send_ok : Nat → Bool) (frame : List Byte) (p : Parser) (retries : Int)
    (sent : List (List Byte)) :
    Client.transact_loop send_ok frame p retries sent [] = (Outcome.blocked, sent) := by
  simp only [Client.transact_loop]

theorem loop_byte_false (send_ok : Nat → Bool) (frame : List Byte) (p : Parser) (retries : Int)
    (sent : List (List Byte)) (c : Byte) (rest : List Recv) (h : (p.push c).2 = false) :
    Client.transact_loop send_ok frame p retries sent (Recv.byte c :: rest)
      = Client.transact_loop send_ok frame (p.push c).1 retries sent rest := by
  simp only [Client.transact_loop, h, Bool.false_eq_true, if_false]

theorem loop_byte_true (send_ok : Nat → Bool) (frame : List Byte) (p : Parser) (retries : Int)
    (sent : List (List Byte)) (c : Byte) (rest : List Recv) (h : (p.push c).2 = true) :
    Client.transact_loop send_ok frame p retries sent (Recv.byte c :: rest)
      = (Client.decode_raw (p.push c).1.buf, sent) := by
  simp only [Client.transact_loop, h, if_true, Parser.take_raw]

theorem loop_failed (send_ok : Nat → Bool) (frame : List Byte) (p : Parser) (retries : Int)
    (sent : List (List Byte)) (rest : List Recv) :
    Client.transact_loop send_ok frame p retries sent (Recv.failed :: rest)
      = Client.transact_loop send_ok frame p retries sent rest := by
  simp only [Client.transact_loop]

theorem loop_timeout (send_ok : Nat → Bool) (frame : List Byte) (p : Parser) (retries : Int)
    (sent : List (List Byte)) (x : Recv) (rest : List Recv)
    (hx : x = Recv.timed_out ∨ x = Recv.closed) :
    Client.transact_loop send_ok frame p retries sent (x :: rest)
      = if retries > 0 then
          if send_ok sent.length then
            Client.transact_loop send_ok frame p (retries - 1) (sent ++ [frame]) rest
          else (Outcome.net_error NetError.send_retry_failed, sent ++ [frame])
        else (Outcome.net_error NetError.recv_timeout, sent) := by
  rcases hx with rfl | rfl <;> simp only [Client.transact_loop]

/-- Bytes that complete a frame on the last of them end the loop with the decoded frame. -/
theorem loop_bytes_complete (send_ok : Nat → Bool) (frame : List Byte) (bytes : List Byte)
    (p q : Parser) (n : Nat) (retries : Int) (sent : List (List Byte)) (rest : List Recv)
    (h : p.feed bytes = (q, List.replicate n false ++ [true])) :
    Client.transact_loop send_ok frame p retries sent (bytes.map Recv.byte ++ rest)
      = (Client.decode_raw q.buf, sent) := by
  induction bytes generalizing p n with
  | nil =>
    simp only [Parser.feed, Prod.mk.injEq] at h
    exact absurd h.2 (by simp)
  | cons x xs ih =>
    rw [List.map_cons, List.cons_append]
    rcases feed_cons_split p q x xs n h with ⟨_, _, hp⟩ | ⟨k, _, hp, hrest⟩
    · have hx : (p.push x).2 = true := by rw [hp]
      rw [loop_byte_true send_ok frame p retries sent x _ hx, hp]
    · rw [loop_byte_false send_ok frame p retries sent x _ hp]
      exact ih _ k hrest

/-- Timeouts and closures while retries remain: one resend of the frame for each. -/
theorem loop_retries (send_ok : Nat → Bool) (frame : List Byte) (hs : ∀ i, send_ok i = true)
    (w : List Recv) (hw : ∀ x ∈ w, x = Recv.timed_out ∨ x = Recv.closed)
    (p : Parser) (retries : Int) (sent : List (List Byte)) (rest : List Recv)
    (hk : (w.length : Int) ≤ retries) :
    Client.transact_loop send_ok frame p retries sent (w ++ rest)
      = Client.transact_loop send_ok frame p (retries - w.length)
          (sent ++ List.replicate w.length frame) rest := by
  induction w generalizing retries sent with
  | nil => simp
  | cons x xs ih =>
    have hx := hw x (by simp)
    have hxs : ∀ y ∈ xs, y = Recv.timed_out ∨ y = Recv.closed := fun y hy => hw y (by simp [hy])
    simp only [List.length_cons, Nat.cast_add, Nat.cast_one] at hk
    rw [List.cons_append, loop_timeout send_ok frame p retries sent x _ hx,
      if_pos (by omega), hs, if_pos rfl, ih hxs (retries - 1) (sent ++ [frame]) (by omega)]
    simp only [List.length_cons, Nat.cast_add, Nat.cast_one, List.replicate_succ,
      List.append_assoc, List.singleton_append]
    congr 1
    omega

/-- More timeouts and closures than retries: the loop throws after `r` resends. -/
theorem loop_exhaust (send_ok : Nat → Bool) (frame : List Byte) (hs : ∀ i, send_ok i = true)
    (w : List Recv) (hw : ∀ x ∈ w, x = Recv.timed_out ∨ x = Recv.closed)
    (p : Parser) (r : Nat) (sent : List (List Byte)) (rest : List Recv)
    (hk : r < w.length) :
    Client.transact_loop send_ok frame p r sent (w ++ rest)
      = (Outcome.net_error NetError.recv_timeout, sent ++ List.replicate r frame) := by
  induction w generalizing r sent with
  | nil => simp at hk
  | cons x xs ih =>
    have hx := hw x (by simp)
    have hxs : ∀ y ∈ xs, y = Recv.timed_out ∨ y = Recv.closed := fun y hy => hw y (by simp [hy])
    rw [List.cons_append, loop_timeout send_ok frame p r sent x _ hx]
    cases r with
    | zero => simp
    | succ k =>
      simp only [List.length_cons] at hk
      rw [if_pos (by omega), hs, if_pos rfl]
      have e : ((k + 1 : Nat) : Int) - 1 = (k : Int) := by omega
      rw [e, ih hxs k (sent ++ [frame]) (by omega)]
      simp [List.replicate_succ]

/-- The loop hands nothing but `frame` to `send`, and at most once per remaining retry. -/
theorem loop_sends_bound (send_ok : Nat → Bool) (frame : List Byte) (recvs : List Recv)
    (p : Parser) (r : Nat) (retries : Int) (sent : List (List Byte)) (hr : retries ≤ r) :
    (Client.transact_loop send_ok frame p retries sent recvs).2.length ≤ sent.length + r ∧
    ∀ s ∈ (Client.transact_loop send_ok frame p retries sent recvs).2, s ∈ sent ∨ s = frame := by
  induction recvs generalizing p r retries sent with
  | nil =>
    rw [loop_nil]
    exact ⟨by simp, fun s hs => Or.inl hs⟩
  | cons x rest ih =>
    cases x with
    | byte c =>
      cases hc : (p.push c).2 with
      | true =>
        rw [loop_byte_true send_ok frame p retries sent c rest hc]
        exact ⟨by simp, fun s hs => Or.inl hs⟩
      | false =>
        rw [loop_byte_false send_ok frame p retries sent c rest hc]
        exact ih _ r retries sent hr
    | failed =>
      rw [loop_failed]
      exact ih p r retries sent hr
    | closed =>
      rw [loop_timeout send_ok frame p retries sent Recv.closed rest (Or.inr rfl)]
      by_cases h0 : retries > 0
      · rw [if_pos h0]
        obtain ⟨k, rfl⟩ : ∃ k, r = k + 1 := ⟨r - 1, by omega⟩
        cases hso : send_ok sent.length with
        | true =>
          rw [if_pos rfl]
          have h := ih p k (retries - 1) (sent ++ [frame]) (by omega)
          refine ⟨?_, ?_⟩
          · have h1 := h.1
            simp only [List.length_append, List.length_cons, List.length_nil] at h1
            omega
          · intro s hs
            rcases h.2 s hs with h2 | h2
            · simp only [List.mem_append, List.mem_singleton] at h2
              exact h2
            · exact Or.inr h2
        | false =>
          rw [if_neg (by simp)]
          refine ⟨by simp, ?_⟩
          intro s hs
          simp only [List.mem_append, List.mem_singleton] at hs
          exact hs
      · rw [if_neg h0]
        exact ⟨by simp, fun s hs => Or.inl hs⟩
    | timed_out =>
      rw [loop_timeout send_ok frame p retries sent Recv.timed_out rest (Or.inl rfl)]
      by_cases h0 : retries > 0
      · rw [if_pos h0]
        obtain ⟨k, rfl⟩ : ∃ k, r = k + 1 := ⟨r - 1, by omega⟩
        cases hso : send_ok sent.length with
        | true =>
          rw [if_pos rfl]
          have h := ih p k (retries - 1) (sent ++ [frame]) (by omega)
          refine ⟨?_, ?_⟩
          · have h1 := h.1
            simp only [List.length_append, List.length_cons, List.length_nil] at h1
            omega
          · intro s hs
            rcases h.2 s hs with h2 | h2
            · simp only [List.mem_append, List.mem_singleton] at h2
              exact h2
            · exact Or.inr h2
        | false =>
          rw [if_neg (by simp)]
          refine ⟨by simp, ?_⟩
          intro s hs
          simp only [List.mem_append, List.mem_singleton] at hs
          exact hs
      · rw [if_neg h0]
        exact ⟨by simp, fun s hs => Or.inl hs⟩

/-- A reply that the loop of `transact` returns agrees with its raw bytes. -/
theorem loop_reply_matches (send_ok : Nat → Bool) (frame : List Byte) (recvs : List Recv)
    (p : Parser) (retries : Int) (sent : List (List Byte)) (rep : Client.Reply)
    (hi : p.Inv)
    (h : (Client.transact_loop send_ok frame p retries sent recvs).1 = Outcome.reply rep) :
    rep.matches_raw := by
  induction recvs generalizing p retries sent with
  | nil =>
    rw [loop_nil] at h
    simp at h
  | cons x rest ih =>
    cases x with
    | byte c =>
      cases hc : (p.push c).2 with
      | true =>
        rw [loop_byte_true send_ok frame p retries sent c rest hc] at h
        have hw := wire_of_push_true p c hi hc
        rw [decode_raw_wire _ hw] at h
        simp only [Outcome.reply.injEq] at h
        rw [← h]
        exact matches_raw_of_wire _ hw
      | false =>
        rw [loop_byte_false send_ok frame p retries sent c rest hc] at h
        exact ih _ retries sent (inv_push p c hi) h
    | failed =>
      rw [loop_failed] at h
      exact ih p retries sent hi h
    | closed =>
      rw [loop_timeout send_ok frame p retries sent Recv.closed rest (Or.inr rfl)] at h
      split at h
      · split at h
        · exact ih p _ _ hi h
        · simp at h
      · simp at h
    | timed_out =>
      rw [loop_timeout send_ok frame p retries sent Recv.timed_out rest (Or.inl rfl)] at h
      split at h
      · split at h
        · exact ih p _ _ hi h
        · simp at h
      · simp at h

theorem ro_nil (p : Parser) : Client.receive_only_loop p [] = Outcome.blocked := by
  simp only [Client.receive_only_loop]

theorem ro_byte_false (p : Parser) (c : Byte) (rest : List Recv) (h : (p.push c).2 = false) :
    Client.receive_only_loop p (Recv.byte c :: rest)
      = Client.receive_only_loop (p.push c).1 rest := by
  simp only [Client.receive_only_loop, h, Bool.false_eq_true, if_false]

theorem ro_byte_true (p : Parser) (c : Byte) (rest : List Recv) (h : (p.push c).2 = true) :
    Client.receive_only_loop p (Recv.byte c :: rest) = Client.decode_raw (p.push c).1.buf := by
  simp only [Client.receive_only_loop, h, if_true, Parser.take_raw]

theorem ro_failed (p : Parser) (rest : List Recv) :
    Client.receive_only_loop p (Recv.failed :: rest) = Client.receive_only_loop p rest := by
  simp only [Client.receive_only_loop]

theorem ro_timeout (p : Parser) (x : Recv) (rest : List Recv)
    (hx : x = Recv.timed_out ∨ x = Recv.closed) :
    Client.receive_only_loop p (x :: rest)
      = Outcome.net_error NetError.recv_timeout_receive_only := by
  rcases hx with rfl | rfl <;> simp only [Client.receive_only_loop]

/-- A reply that the loop of `receive_only` returns agrees with its raw bytes. -/
theorem ro_reply_matches (recvs : List Recv) (p : Parser) (rep : Client.Reply) (hi : p.Inv)
    (h : Client.receive_only_loop p recvs = Outcome.reply rep) : rep.matches_raw := by
  induction recvs generalizing p with
  | nil =>
    rw [ro_nil] at h
    simp at h
  | cons x rest ih =>
    cases x with
    | byte c =>
      cases hc : (p.push c).2 with
      | true =>
        rw [ro_byte_true p c rest hc] at h
        have hw := wire_of_push_true p c hi hc
        rw [decode_raw_wire _ hw] at h
        simp only [Outcome.reply.injEq] at h
        rw [← h]
        exact matches_raw_of_wire _ hw
      | false =>
        rw [ro_byte_false p c rest hc] at h
        exact ih _ (inv_push p c hi) h
    | failed =>
      rw [ro_failed] at h
      exact ih p hi h
    | closed =>
      rw [ro_timeout p Recv.closed rest (Or.inr rfl)] at h
      simp at h
    | timed_out =>
      rw [ro_timeout p Recv.timed_out rest (Or.inl rfl)] at h
      simp at h

/-- Before any frame completes, the first timeout or closure ends `receive_only`. -/
theorem ro_first_timeout (pre : List Recv) (p : Parser) (x : Recv) (rest : List Recv)
    (hx : x = Recv.timed_out ∨ x = Recv.closed)
    (hpre : ∀ y ∈ pre, y ≠ Recv.timed_out ∧ y ≠ Recv.closed)
    (hno : ∀ v ∈ (p.feed (received_bytes pre)).2, v = false) :
    Client.receive_only_loop p (pre ++ x :: rest)
      = Outcome.net_error NetError.recv_timeout_receive_only := by
  induction pre generalizing p with
  | nil => exact ro_timeout p x rest hx
  | cons y ys ih =>
    have hys : ∀ z ∈ ys, z ≠ Recv.timed_out ∧ z ≠ Recv.closed := fun z hz => hpre z (by simp [hz])
    have hy := hpre y (by simp)
    rw [List.cons_append]
    cases y with
    | byte c =>
      simp only [received_bytes, Parser.feed, List.mem_cons, forall_eq_or_imp] at hno
      rw [ro_byte_false p c _ hno.1]
      exact ih _ hys hno.2
    | failed =>
      simp only [received_bytes] at hno
      rw [ro_failed]
      exact ih p hys hno
    | closed => exact absurd rfl hy.2
    | timed_out => exact absurd rfl hy.1

/-! ## A corrupted address, command or data byte -/

theorem toByte_ne (m n : Nat) (h : m % 256 ≠ n % 256) : toByte m ≠ toByte n := by
  intro he
  apply h
  have := congrArg Fin.val he
  simpa [toByte] using this

theorem set_append_lt (xs ys : List Byte) (k : Nat) (v : Byte) (h : k < xs.length) :
    (xs ++ ys).set k v = xs.set k v ++ ys := by
  induction xs generalizing k with
  | nil => simp at h
  | cons x xs ih =>
    cases k with
    | zero => rfl
    | succ j =>
      have hj : j < xs.length := by simpa using h
      simp [ih j hj]

theorem sum_set (data : List Byte) (i : Nat) (v : Byte) (h : i < data.length) :
    ((data.set i v).map Fin.val).sum + (data.getD i 0).val = (data.map Fin.val).sum + v.val := by
  induction data generalizing i with
  | nil => simp at h
  | cons x xs ih =>
    cases i with
    | zero =>
      simp only [List.set_cons_zero, List.map_cons, List.sum_cons, List.getD_cons_zero]
      omega
    | succ j =>
      have hj : j < xs.length := by simpa using h
      have := ih j hj
      simp only [List.set_cons_succ, List.map_cons, List.sum_cons, List.getD_cons_succ]
      omega

/-- A frame-shaped input that fails a footer check: false on every byte, fresh parser after. -/
theorem feed_candidate_reject (a c l : Byte) (data : List Byte) (e s z : Byte)
    (hl : data.length = l.val)
    (hbad : ¬ (z = CR ∧ e = ETX ∧ s = Frame.calc_sum ([STX, a, c, l] ++ data ++ [e]))) :
    Parser.fresh.feed ([STX, a, c, l] ++ data ++ [e, s, z])
      = (Parser.fresh, List.replicate (l.val + 7) false) := by
  have hc := feed_candidate a c l data e s z hl
  rw [if_neg hbad] at hc
  rw [hc, replicate_false_snoc]

theorem prefix_sum (a c l : Byte) (data : List Byte) :
    (([STX, a, c, l] ++ data ++ [ETX]).map Fin.val).sum
      = 2 + a.val + c.val + l.val + (data.map Fin.val).sum + 3 := by
  have e2 : (STX : Byte).val = 2 := rfl
  have e3 : (ETX : Byte).val = 3 := rfl
  simp only [List.map_append, List.sum_append, List.map_cons, List.sum_cons, List.map_nil,
    List.sum_nil, e2, e3]
  omega

theorem feed_bad_addr (f : Frame) (v : Byte) (h : f.data.length ≤ 255) (hv : v ≠ f.addr) :
    Parser.fresh.feed (f.encode.set 1 v)
      = (Parser.fresh, List.replicate (f.data.length + 7) false) := by
  have hl : f.data.length = (toByte f.data.length).val := (toByte_val _ h).symm
  have hset : f.encode.set 1 v = [STX, v, f.cmd, toByte f.data.length] ++ f.data ++
      [ETX, Frame.calc_sum ([STX, f.addr, f.cmd, toByte f.data.length] ++ f.data ++ [ETX]),
        CR] := by
    rw [encode_eq]
    rfl
  have hne : v.val ≠ f.addr.val := fun he => hv (Fin.ext he)
  have hr := feed_candidate_reject v f.cmd (toByte f.data.length) f.data ETX
    (Frame.calc_sum ([STX, f.addr, f.cmd, toByte f.data.length] ++ f.data ++ [ETX])) CR hl
    (by
      rintro ⟨_, _, hs⟩
      rw [calc_sum_eq, calc_sum_eq, prefix_sum, prefix_sum] at hs
      have hv1 := v.isLt
      have hv2 := f.addr.isLt
      exact toByte_ne _ _ (by omega) hs)
  rw [hset, hr, ← hl]

theorem feed_bad_cmd (f : Frame) (v : Byte) (h : f.data.length ≤ 255) (hv : v ≠ f.cmd) :
    Parser.fresh.feed (f.encode.set 2 v)
      = (Parser.fresh, List.replicate (f.data.length + 7) false) := by
  have hl : f.data.length = (toByte f.data.length).val := (toByte_val _ h).symm
  have hset : f.encode.set 2 v = [STX, f.addr, v, toByte f.data.length] ++ f.data ++
      [ETX, Frame.calc_sum ([STX, f.addr, f.cmd, toByte f.data.length] ++ f.data ++ [ETX]),
        CR] := by
    rw [encode_eq]
    rfl
  have hne : v.val ≠ f.cmd.val := fun he => hv (Fin.ext he)
  have hr := feed_candidate_reject f.addr v (toByte f.data.length) f.data ETX
    (Frame.calc_sum ([STX, f.addr, f.cmd, toByte f.data.length] ++ f.data ++ [ETX])) CR hl
    (by
      rintro ⟨_, _, hs⟩
      rw [calc_sum_eq, calc_sum_eq, prefix_sum, prefix_sum] at hs
      have hv1 := v.isLt
      have hv2 := f.cmd.isLt
      exact toByte_ne _ _ (by omega) hs)
  rw [hset, hr, ← hl]

theorem encode_get_data (f : Frame) (i : Nat) (hi : i < f.data.length) :
    f.encode.getD (4 + i) 0 = f.data.getD i 0 := by
  have e : f.encode = [STX, f.addr, f.cmd, toByte f.data.length] ++ (f.data ++
      [ETX, Frame.calc_sum ([STX, f.addr, f.cmd, toByte f.data.length] ++ f.data ++ [ETX]),
        CR]) := by
    rw [encode_eq, List.append_assoc]
  have h4 : 4 + i = [STX, f.addr, f.cmd, toByte f.data.length].length + i := rfl
  rw [e, h4, getD_append_add, getD_append_lt _ _ _ _ hi]

theorem feed_bad_data (f : Frame) (i : Nat) (v : Byte) (h : f.data.length ≤ 255)
    (hi : i < f.data.length) (hv : v ≠ f.data.getD i 0) :
    Parser.fresh.feed (f.encode.set (4 + i) v)
      = (Parser.fresh, List.replicate (f.data.length + 7) false) := by
  have hl : (f.data.set i v).length = (toByte f.data.length).val := by
    rw [List.length_set, toByte_val _ h]
  have hset : f.encode.set (4 + i) v
      = [STX, f.addr, f.cmd, toByte f.data.length] ++ f.data.set i v ++
        [ETX, Frame.calc_sum ([STX, f.addr, f.cmd, toByte f.data.length] ++ f.data ++ [ETX]),
          CR] := by
    have e : f.encode = [STX, f.addr, f.cmd, toByte f.data.length] ++ (f.data ++
        [ETX, Frame.calc_sum ([STX, f.addr, f.cmd, toByte f.data.length] ++ f.data ++ [ETX]),
          CR]) := by
      rw [encode_eq, List.append_assoc]
    have h4 : 4 + i = [STX, f.addr, f.cmd, toByte f.data.length].length + i := rfl
    rw [h4]
    nth_rewrite 1 [e]
    rw [set_append_add, set_append_lt _ _ _ _ hi]
    simp only [List.append_assoc]
  have hne : v.val ≠ (f.data.getD i 0).val := fun he => hv (Fin.ext he)
  have hsum := sum_set f.data i v hi
  have hr := feed_candidate_reject f.addr f.cmd (toByte f.data.length) (f.data.set i v) ETX
    (Frame.calc_sum ([STX, f.addr, f.cmd, toByte f.data.length] ++ f.data ++ [ETX])) CR hl
    (by
      rintro ⟨_, _, hs⟩
      rw [calc_sum_eq, calc_sum_eq, prefix_sum, prefix_sum] at hs
      have hv1 := v.isLt
      have hv2 := (f.data.getD i 0).isLt
      exact toByte_ne _ _ (by omega) hs)
  rw [hset, hr, toByte_val _ h]

/-! ## Hard receive errors -/

theorem loop_skip_failed (send_ok : Nat → Bool) (frame : List Byte) (recvs : List Recv)
    (p : Parser) (retries : Int) (sent : List (List Byte)) :
    Client.transact_loop send_ok frame p retries sent recvs
      = Client.transact_loop send_ok frame p retries sent
          (recvs.filter (fun x => decide (x ≠ Recv.failed))) := by
  induction recvs generalizing p retries sent with
  | nil => rfl
  | cons x rest ih =>
    cases x with
    | byte c =>
      have hf : (Recv.byte c :: rest).filter (fun x => decide (x ≠ Recv.failed))
          = Recv.byte c :: rest.filter (fun x => decide (x ≠ Recv.failed)) := by
        simp [List.filter_cons]
      rw [hf]
      cases hc : (p.push c).2 with
      | true =>
        rw [loop_byte_true send_ok frame p retries sent c _ hc,
          loop_byte_true send_ok frame p retries sent c _ hc]
      | false =>
        rw [loop_byte_false send_ok frame p retries sent c _ hc,
          loop_byte_false send_ok frame p retries sent c _ hc]
        exact ih _ retries sent
    | failed =>
      have hf : (Recv.failed :: rest).filter (fun x => decide (x ≠ Recv.failed))
          = rest.filter (fun x => decide (x ≠ Recv.failed)) := by
        simp [List.filter_cons]
      rw [hf, loop_failed]
      exact ih p retries sent
    | closed =>
      have hf : (Recv.closed :: rest).filter (fun x => decide (x ≠ Recv.failed))
          = Recv.closed :: rest.filter (fun x => decide (x ≠ Recv.failed)) := by
        simp [List.filter_cons]
      rw [hf, loop_timeout send_ok frame p retries sent Recv.closed _ (Or.inr rfl),
        loop_timeout send_ok frame p retries sent Recv.closed _ (Or.inr rfl),
        ih p (retries - 1) (sent ++ [frame])]
    | timed_out =>
      have hf : (Recv.timed_out :: rest).filter (fun x => decide (x ≠ Recv.failed))
          = Recv.timed_out :: rest.filter (fun x => decide (x ≠ Recv.failed)) := by
        simp [List.filter_cons]
      rw [hf, loop_timeout send_ok frame p retries sent Recv.timed_out _ (Or.inl rfl),
        loop_timeout send_ok frame p retries sent Recv.timed_out _ (Or.inl rfl),
        ih p (retries - 1) (sent ++ [frame])]

theorem ro_skip_failed (recvs : List Recv) (p : Parser) :
    Client.receive_only_loop p recvs
      = Client.receive_only_loop p (recvs.filter (fun x => decide (x ≠ Recv.failed))) := by
  induction recvs generalizing p with
  | nil => rfl
  | cons x rest ih =>
    cases x with
    | byte c =>
      have hf : (Recv.byte c :: rest).filter (fun x => decide (x ≠ Recv.failed))
          = Recv.byte c :: rest.filter (fun x => decide (x ≠ Recv.failed)) := by
        simp [List.filter_cons]
      rw [hf]
      cases hc : (p.push c).2 with
      | true => rw [ro_byte_true p c _ hc, ro_byte_true p c _ hc]
      | false =>
        rw [ro_byte_false p c _ hc, ro_byte_false p c _ hc]
        exact ih _
    | failed =>
      have hf : (Recv.failed :: rest).filter (fun x => decide (x ≠ Recv.failed))
          = rest.filter (fun x => decide (x ≠ Recv.failed)) := by
        simp [List.filter_cons]
      rw [hf, ro_failed]
      exact ih p
    | closed =>
      have hf : (Recv.closed :: rest).filter (fun x => decide (x ≠ Recv.failed))
          = Recv.closed :: rest.filter (fun x => decide (x ≠ Recv.failed)) := by
        simp [List.filter_cons]
      rw [hf, ro_timeout p Recv.closed _ (Or.inr rfl), ro_timeout p Recv.closed _ (Or.inr rfl)]
    | timed_out =>
      have hf : (Recv.timed_out :: rest).filter (fun x => decide (x ≠ Recv.failed))
          = Recv.timed_out :: rest.filter (fun x => decide (x ≠ Recv.failed)) := by
        simp [List.filter_cons]
      rw [hf, ro_timeout p Recv.timed_out _ (Or.inl rfl),
        ro_timeout p Recv.timed_out _ (Or.inl rfl)]

theorem loop_only_failed (send_ok : Nat → Bool) (frame : List Byte) (n : Nat) (p : Parser)
    (retries : Int) (sent : List (List Byte)) :
    Client.transact_loop send_ok frame p retries sent (List.replicate n Recv.failed)
      = (Outcome.blocked, sent) := by
  induction n with
  | zero => exact loop_nil send_ok frame p retries sent
  | succ k ih => rw [List.replicate_succ, loop_failed, ih]

theorem ro_only_failed (n : Nat) (p : Parser) :
    Client.receive_only_loop p (List.replicate n Recv.failed) = Outcome.blocked := by
  induction n with
  | zero => exact ro_nil p
  | succ k ih => rw [List.replicate_succ, ro_failed, ih]

/-! ## The claims -/

/-- C1 (round trip). For every address, command and payload of at most 255 bytes, a freshly
constructed parser fed the bytes of `encode()` one by one returns false on every byte but the
last and true on the last, and the `take()` that follows returns exactly the address, the command
and the payload (and leaves the parser reset). -/
theorem C1_encode_feed_take_roundtrip (f : Frame) (h : f.data.length ≤ 255) :
    (Parser.fresh.feed f.encode).2 = List.replicate (f.data.length + 6) false ++ [true] ∧
    (Parser.fresh.feed f.encode).2.getLast? = some true ∧
    (Parser.fresh.feed f.encode).1.take
      = (Except.ok ⟨f.addr, f.cmd, f.data⟩, Parser.fresh) := by
  rw [feed_encode f h]
  refine ⟨rfl, by simp, ?_⟩
  exact take_encode f h State.FOOTER 0

/-- Witness of C1 at the ROM-version request `00 4F [90]`. -/
theorem C1_encode_feed_take_roundtrip_witness :
    rom_frame.data.length ≤ 255 ∧
    ((Parser.fresh.feed rom_frame.encode).2
        = List.replicate (rom_frame.data.length + 6) false ++ [true] ∧
      (Parser.fresh.feed rom_frame.encode).2.getLast? = some true ∧
      (Parser.fresh.feed rom_frame.encode).1.take
        = (Except.ok ⟨rom_frame.addr, rom_frame.cmd, rom_frame.data⟩, Parser.fresh)) :=
  ⟨by decide, C1_encode_feed_take_roundtrip rom_frame (by decide)⟩

set_option maxRecDepth 100000 in
/-- C2, the claim fails on the code. At a 256-byte payload `encode()` does not fail: it returns
263 bytes, and the length byte it writes is `0x00`, the low byte of 256. -/
theorem C2_encode_256_returns_bytes :
    Frame.encode ⟨0x00, 0x4F, List.replicate 256 0x90⟩
      = [0x02, 0x00, 0x4F, 0x00] ++ List.replicate 256 0x90 ++ [0x03, 0x54, 0x0D] := by
  rw [encode_eq, calc_sum_eq]
  decide

/-- C2 as amended. `encode()` has no failure path: for every payload, of any length, it returns
exactly `4 + |payload| + 3` bytes that begin with STX, the address and the command, carry the
whole payload from offset 4 on, and end with ETX, the checksum of everything before it, and CR. -/
theorem C2_encode_total (f : Frame) :
    f.encode.length = 4 + f.data.length + 3 ∧
    f.encode.take 3 = [STX, f.addr, f.cmd] ∧
    (f.encode.drop 4).take f.data.length = f.data ∧
    f.encode.drop (4 + f.data.length)
      = [ETX, Frame.calc_sum (f.encode.take (4 + f.data.length + 1)), CR] := by
  have e1 : f.encode = ([STX, f.addr, f.cmd, toByte f.data.length] ++ f.data ++ [ETX]) ++
      [Frame.calc_sum ([STX, f.addr, f.cmd, toByte f.data.length] ++ f.data ++ [ETX]), CR] := by
    simp [encode_eq]
  have hl1 : 4 + f.data.length + 1
      = ([STX, f.addr, f.cmd, toByte f.data.length] ++ f.data ++ [ETX]).length := by
    simp; omega
  have hl : 4 + f.data.length = ([STX, f.addr, f.cmd, toByte f.data.length] ++ f.data).length := by
    simp; omega
  have hpre : f.encode.take (4 + f.data.length + 1)
      = [STX, f.addr, f.cmd, toByte f.data.length] ++ f.data ++ [ETX] := by
    rw [hl1]
    nth_rewrite 1 [e1]
    exact List.take_left _ _
  refine ⟨by simp [encode_eq]; omega, by simp [encode_eq], by simp [encode_eq], ?_⟩
  rw [hpre, hl]
  nth_rewrite 1 [encode_eq]
  exact List.drop_left _ _

/-- C3 (wire layout). For every address, command and payload of at most 255 bytes, `encode()`
returns exactly the `4 + |payload| + 3` bytes `02, addr, cmd, LEN`, the payload, `03, SUM, 0D`,
where `LEN` is the payload length and `SUM` is the sum of all bytes before it (STX through ETX)
modulo 256. -/
theorem C3_encode_wire_layout (f : Frame) (h : f.data.length ≤ 255) :
    f.encode = [0x02, f.addr, f.cmd, toByte f.data.length] ++ f.data ++
      [0x03, sum_mod_256 ([0x02, f.addr, f.cmd, toByte f.data.length] ++ f.data ++ [0x03]), 0x0D] ∧
    (toByte f.data.length).val = f.data.length ∧
    (sum_mod_256 ([0x02, f.addr, f.cmd, toByte f.data.length] ++ f.data ++ [0x03])).val
      = (0x02 + f.addr.val + f.cmd.val + f.data.length + (f.data.map Fin.val).sum + 0x03) % 256 ∧
    f.encode.length = 4 + f.data.length + 3 := by
  have hv := toByte_val _ h
  refine ⟨?_, hv, ?_, by simp [encode_eq]; omega⟩
  · rw [encode_eq, calc_sum_eq]
    rfl
  · simp only [sum_mod_256, toByte, List.map_append, List.sum_append, List.map_cons,
      List.sum_cons, List.map_nil, List.sum_nil]
    have h4 : (toByte f.data.length).val = f.data.length := hv
    simp only [toByte] at h4
    simp only [h4]
    have e2 : ((0x02 : Byte) : Nat) = 2 := rfl
    have e3 : ((0x03 : Byte) : Nat) = 3 := rfl
    rw [e2, e3]
    congr 1
    omega

/-- Witness of C3 at the ROM-version request `00 4F [90]`. -/
theorem C3_encode_wire_layout_witness :
    rom_frame.data.length ≤ 255 ∧
    (rom_frame.encode = [0x02, rom_frame.addr, rom_frame.cmd, toByte rom_frame.data.length]
        ++ rom_frame.data ++
        [0x03, sum_mod_256 ([0x02, rom_frame.addr, rom_frame.cmd, toByte rom_frame.data.length]
          ++ rom_frame.data ++ [0x03]), 0x0D] ∧
      (toByte rom_frame.data.length).val = rom_frame.data.length ∧
      (sum_mod_256 ([0x02, rom_frame.addr, rom_frame.cmd, toByte rom_frame.data.length]
          ++ rom_frame.data ++ [0x03])).val
        = (0x02 + rom_frame.addr.val + rom_frame.cmd.val + rom_frame.data.length
            + (rom_frame.data.map Fin.val).sum + 0x03) % 256 ∧
      rom_frame.encode.length = 4 + rom_frame.data.length + 3) :=
  ⟨by decide, C3_encode_wire_layout rom_frame (by decide)⟩

/-- C4 (checksum vector). Address `0x00`, command `0x4F`, payload `[0x90]` encodes to
`02 00 4F 01 90 03 E5 0D`; that is what `cmd::check_rom_version()` returns with its default
address; and `calc_sum` of `02 00 4F 01 90 03` is `0xE5`. -/
theorem C4_checksum_vector :
    Frame.encode ⟨0x00, 0x4F, [0x90]⟩ = [0x02, 0x00, 0x4F, 0x01, 0x90, 0x03, 0xE5, 0x0D] ∧
    cmd.check_rom_version 0x00 = [0x02, 0x00, 0x4F, 0x01, 0x90, 0x03, 0xE5, 0x0D] ∧
    Frame.calc_sum [0x02, 0x00, 0x4F, 0x01, 0x90, 0x03] = 0xE5 := by
  decide

/-- C5 (garbage prefix). For every byte sequence `g` without an STX byte and every encoded frame
`f` with a payload of at most 255 bytes, a fresh parser fed `g` and then `f` returns false on
every byte of `g` and on every byte of `f` but the last, true on the last byte of `f`, and
`take_raw()` then returns exactly `f` (and resets the parser). -/
theorem C5_garbage_then_frame (g : List Byte) (f : Frame) (hg : ∀ b ∈ g, b ≠ STX)
    (h : f.data.length ≤ 255) :
    (Parser.fresh.feed (g ++ f.encode)).2
      = List.replicate g.length false ++ (List.replicate (f.encode.length - 1) false ++ [true]) ∧
    (Parser.fresh.feed (g ++ f.encode)).1.take_raw = (f.encode, Parser.fresh) := by
  have hlen : f.encode.length - 1 = f.data.length + 6 := by simp [encode_eq]
  have e1 := feed_append Parser.fresh g f.encode
  have e2 := feed_garbage g hg
  have e3 := feed_encode f h
  simp only [e2, e3] at e1
  simp only [e1, hlen, take_raw_mk, and_self]

/-- Witness of C5: the garbage `AA BB` before the ROM-version request. -/
theorem C5_garbage_then_frame_witness :
    (∀ b ∈ ([0xAA, 0xBB] : List Byte), b ≠ STX) ∧ rom_frame.data.length ≤ 255 ∧
    ((Parser.fresh.feed ([0xAA, 0xBB] ++ rom_frame.encode)).2
        = List.replicate ([0xAA, 0xBB] : List Byte).length false
          ++ (List.replicate (rom_frame.encode.length - 1) false ++ [true]) ∧
      (Parser.fresh.feed ([0xAA, 0xBB] ++ rom_frame.encode)).1.take_raw
        = (rom_frame.encode, Parser.fresh)) :=
  have hg : ∀ b ∈ ([0xAA, 0xBB] : List Byte), b ≠ STX := by
    intro b hb
    simp only [List.mem_cons, List.mem_singleton, List.not_mem_nil, or_false] at hb
    rcases hb with rfl | rfl <;> decide
  ⟨hg, by decide, C5_garbage_then_frame [0xAA, 0xBB] rom_frame hg (by decide)⟩

/-- C6 (checksum corruption resync). Take an encoded frame `f` (payload at most 255 bytes) and
replace its SUM byte, at offset `|payload| + 5`, by any other value `s`; take any encoded frame
`g` (payload at most 255 bytes). A fresh parser fed the corrupted `f` and then `g` returns false
on every byte of the corrupted frame, false on every byte of `g` but the last and true on the
last byte of `g`, and `take_raw()` then returns `g`. -/
theorem C6_bad_checksum_resync (f g : Frame) (s : Byte) (hf : f.data.length ≤ 255)
    (hg : g.data.length ≤ 255) (hs : s ≠ f.encode.getD (f.data.length + 5) 0) :
    (f.encode.set (f.data.length + 5) s).length = f.encode.length ∧
    (Parser.fresh.feed (f.encode.set (f.data.length + 5) s ++ g.encode)).2
      = List.replicate f.encode.length false
        ++ (List.replicate (g.encode.length - 1) false ++ [true]) ∧
    (Parser.fresh.feed (f.encode.set (f.data.length + 5) s ++ g.encode)).1.take_raw
      = (g.encode, Parser.fresh) := by
  have hlf : f.encode.length = f.data.length + 7 := by simp [encode_eq]
  have hlg : g.encode.length - 1 = g.data.length + 6 := by simp [encode_eq]
  refine ⟨by simp, ?_⟩
  have e1 := feed_append Parser.fresh (f.encode.set (f.data.length + 5) s) g.encode
  have e2 := feed_bad_sum f s hf hs
  have e3 := feed_encode g hg
  simp only [e2, e3] at e1
  simp only [e1, hlf, hlg, take_raw_mk, and_self]

/-- Witness of C6: the ROM-version request with its SUM `E5` turned into `E4` (lowest bit
flipped), followed by the intact request. -/
theorem C6_bad_checksum_resync_witness :
    rom_frame.data.length ≤ 255 ∧ rom_frame.data.length ≤ 255 ∧
    (0xE4 : Byte) ≠ rom_frame.encode.getD (rom_frame.data.length + 5) 0 ∧
    ((rom_frame.encode.set (rom_frame.data.length + 5) 0xE4).length = rom_frame.encode.length ∧
      (Parser.fresh.feed (rom_frame.encode.set (rom_frame.data.length + 5) 0xE4
          ++ rom_frame.encode)).2
        = List.replicate rom_frame.encode.length false
          ++ (List.replicate (rom_frame.encode.length - 1) false ++ [true]) ∧
      (Parser.fresh.feed (rom_frame.encode.set (rom_frame.data.length + 5) 0xE4
          ++ rom_frame.encode)).1.take_raw
        = (rom_frame.encode, Parser.fresh)) :=
  ⟨by decide, by decide, by decide,
    C6_bad_checksum_resync rom_frame rom_frame 0xE4 (by decide) (by decide) (by decide)⟩

/-- C7 (soundness of completion). In every state a fresh parser can reach through `push`,
`take`, `take_raw` and `reset`, whenever `push` returns true the buffer it leaves is the old
buffer with the byte appended and is a complete checksum-valid wire frame (first byte STX, length
`LEN + 7`, third-from-last ETX, last CR, second-from-last the sum of the earlier bytes mod 256),
and it equals `encode` of the address, command and payload read off it. -/
theorem C7_push_true_is_valid_frame (p : Parser) (b : Byte) (hr : Reachable p)
    (ht : (p.push b).2 = true) :
    (p.push b).1.buf = p.buf ++ [b] ∧
    WireFrame (p.push b).1.buf ∧
    (p.push b).1.buf = Frame.encode ⟨(p.push b).1.buf.getD 1 0, (p.push b).1.buf.getD 2 0,
      ((p.push b).1.buf.drop 4).take ((p.push b).1.buf.getD 3 0).val⟩ := by
  have hi := inv_push p b (inv_of_reachable p hr)
  obtain ⟨hst, hbuf, _⟩ := push_true_state p b ht
  generalize (p.push b).1 = q at hi hst hbuf ⊢
  obtain ⟨st, buf, need⟩ := q
  change st = State.FOOTER at hst
  subst hst
  rw [inv_footer] at hi
  exact ⟨hbuf, hi.1, wireFrame_eq_encode buf hi.1⟩

/-- Witness of C7: the parser that holds `02 00 4F 01 90 03 E5` receives the final `0D`. -/
theorem C7_push_true_is_valid_frame_witness :
    Reachable before_last_byte ∧ (before_last_byte.push 0x0D).2 = true ∧
    ((before_last_byte.push 0x0D).1.buf = before_last_byte.buf ++ [0x0D] ∧
      WireFrame (before_last_byte.push 0x0D).1.buf ∧
      (before_last_byte.push 0x0D).1.buf
        = Frame.encode ⟨(before_last_byte.push 0x0D).1.buf.getD 1 0,
          (before_last_byte.push 0x0D).1.buf.getD 2 0,
          ((before_last_byte.push 0x0D).1.buf.drop 4).take
            ((before_last_byte.push 0x0D).1.buf.getD 3 0).val⟩) :=
  have hr : Reachable before_last_byte := reachable_feed _ _ Reachable.fresh
  ⟨hr, by decide, C7_push_true_is_valid_frame before_last_byte 0x0D hr (by decide)⟩

/-- C8 (back-to-back frames in order). For every list of encoded frames with payloads of at most
255 bytes, a fresh parser fed their concatenation, with `take_raw()` called each time `push`
returns true, completes exactly once per frame, on the last byte of that frame, and returns the
frames in order; with `take()` instead it returns their addresses, commands and payloads in
order. No `reset()` is called in between, and the parser ends as a fresh one. -/
theorem C8_back_to_back_frames (frames : List Frame) (h : ∀ f ∈ frames, f.data.length ≤ 255) :
    Parser.fresh.drain_raw (frames.flatMap Frame.encode)
      = (Parser.fresh, frames.flatMap
          (fun f => List.replicate (f.encode.length - 1) none ++ [some f.encode])) ∧
    Parser.fresh.drain_take (frames.flatMap Frame.encode)
      = (Parser.fresh, frames.flatMap
          (fun f => List.replicate (f.encode.length - 1) none
            ++ [some (Except.ok ⟨f.addr, f.cmd, f.data⟩)])) ∧
    ((Parser.fresh.drain_raw (frames.flatMap Frame.encode)).2.filter Option.isSome).length
      = frames.length := by
  refine ⟨drain_raw_frames frames h, drain_take_frames frames h, ?_⟩
  rw [drain_raw_frames frames h]
  exact count_completions frames

/-- Witness of C8: the ROM-version request directly followed by the command-mode request. -/
theorem C8_back_to_back_frames_witness :
    (∀ f ∈ [rom_frame, mode_frame], f.data.length ≤ 255) ∧
    (Parser.fresh.drain_raw ([rom_frame, mode_frame].flatMap Frame.encode)
        = (Parser.fresh, [rom_frame, mode_frame].flatMap
            (fun f => List.replicate (f.encode.length - 1) none ++ [some f.encode])) ∧
      Parser.fresh.drain_take ([rom_frame, mode_frame].flatMap Frame.encode)
        = (Parser.fresh, [rom_frame, mode_frame].flatMap
            (fun f => List.replicate (f.encode.length - 1) none
              ++ [some (Except.ok ⟨f.addr, f.cmd, f.data⟩)])) ∧
      ((Parser.fresh.drain_raw ([rom_frame, mode_frame].flatMap Frame.encode)).2.filter
          Option.isSome).length = [rom_frame, mode_frame].length) :=
  have hf : ∀ f ∈ [rom_frame, mode_frame], f.data.length ≤ 255 := by
    intro f hf
    simp only [List.mem_cons, List.mem_singleton, List.not_mem_nil, or_false] at hf
    rcases hf with rfl | rfl <;> decide
  ⟨hf, C8_back_to_back_frames [rom_frame, mode_frame] hf⟩

/-- C9 (`take` fails exactly when no frame is complete). In every state a fresh parser can reach
through `push`, `take`, `take_raw` and `reset`: `take()` throws, leaving the parser as it was,
exactly when the state is not the completed one (`FOOTER`); it succeeds exactly when it is; in a
mid-payload state with seven or more bytes buffered it throws at the length check; and the
completed state is exactly what a `push` that returned true leaves. -/
theorem C9_take_fails_iff_not_complete (p : Parser) (hr : Reachable p) :
    ((∃ e, p.take = (Except.error e, p)) ↔ p.st ≠ State.FOOTER) ∧
    ((∃ d, p.take = (Except.ok d, Parser.fresh)) ↔ p.st = State.FOOTER) ∧
    (p.st = State.PAYLOAD → 7 ≤ p.buf.length →
      p.take = (Except.error TakeError.length_mismatch, p)) ∧
    (p.st = State.FOOTER ↔ ∃ q b, Reachable q ∧ q.push b = (p, true)) := by
  have hcases := take_of_inv p (inv_of_reachable p hr)
  refine ⟨?_, ?_, ?_, ?_, ?_⟩
  · rcases hcases with ⟨hs, ht⟩ | ⟨hs, _, ht⟩ | ⟨hs, _, ht⟩
    · rw [ht]
      constructor
      · rintro ⟨e, he⟩
        simp at he
      · intro hne
        exact absurd hs hne
    · exact ⟨fun _ => hs, fun _ => ⟨_, ht⟩⟩
    · exact ⟨fun _ => by simp [hs], fun _ => ⟨_, ht⟩⟩
  · rcases hcases with ⟨hs, ht⟩ | ⟨hs, _, ht⟩ | ⟨hs, _, ht⟩
    · exact ⟨fun _ => hs, fun _ => ⟨_, ht⟩⟩
    · rw [ht]
      constructor
      · rintro ⟨d, hd⟩
        simp at hd
      · intro he
        exact absurd he hs
    · rw [ht]
      constructor
      · rintro ⟨d, hd⟩
        simp at hd
      · intro he
        simp [hs] at he
  · intro hs hl
    rcases hcases with ⟨hs2, _⟩ | ⟨_, hl2, _⟩ | ⟨_, _, ht⟩
    · simp [hs] at hs2
    · omega
    · exact ht
  · intro hs
    clear hcases
    induction hr with
    | fresh => simp [Parser.fresh] at hs
    | push q b hq _ =>
      have hf := push_footer_true q b hs
      exact ⟨q, b, hq, Prod.ext rfl hf⟩
    | take q hq ih =>
      rcases take_of_inv q (inv_of_reachable q hq) with ⟨_, ht⟩ | ⟨_, _, ht⟩ | ⟨_, _, ht⟩
      · rw [ht] at hs
        simp [Parser.fresh] at hs
      · rw [ht] at hs ⊢
        exact ih hs
      · rw [ht] at hs ⊢
        exact ih hs
    | take_raw q _ _ => simp [Parser.take_raw, Parser.reset] at hs
    | reset q _ _ => simp [Parser.reset] at hs
  · rintro ⟨q, b, _, hq⟩
    have ht : (q.push b).2 = true := by rw [hq]
    have h1 := (push_true_state q b ht).1
    rw [hq] at h1
    exact h1

/-- Witness of C9: a parser in the middle of a payload with seven bytes buffered. -/
theorem C9_take_fails_iff_not_complete_witness :
    Reachable mid_payload ∧
    (((∃ e, mid_payload.take = (Except.error e, mid_payload))
        ↔ mid_payload.st ≠ State.FOOTER) ∧
      ((∃ d, mid_payload.take = (Except.ok d, Parser.fresh))
        ↔ mid_payload.st = State.FOOTER) ∧
      (mid_payload.st = State.PAYLOAD → 7 ≤ mid_payload.buf.length →
        mid_payload.take = (Except.error TakeError.length_mismatch, mid_payload)) ∧
      (mid_payload.st = State.FOOTER
        ↔ ∃ q b, Reachable q ∧ q.push b = (mid_payload, true))) :=
  have hr : Reachable mid_payload := reachable_feed _ _ Reachable.fresh
  ⟨hr, C9_take_fails_iff_not_complete mid_payload hr⟩

/-- C10 (extraction is single-use and resets). On a parser that holds a completed frame (state
`FOOTER`, in any state a fresh parser can reach) `take()` succeeds: it returns the address,
command and payload of the buffered frame and leaves a parser equal to a freshly constructed one
(`SEEK_STX`, empty buffer, `need_ = 0`); `take_raw()` returns the buffered bytes and leaves the
same. After either of them an immediately following `take()` throws and an immediately following
`take_raw()` returns the empty sequence. In any state whatsoever, a `take()` that succeeds and
every `take_raw()` leave a parser equal to a freshly constructed one, and a `take()` that throws
leaves it unchanged. -/
theorem C10_extraction_resets (p : Parser) (hr : Reachable p) (hs : p.st = State.FOOTER) :
    p.take = (Except.ok ⟨p.buf.getD 1 0, p.buf.getD 2 0,
        (p.buf.drop 4).take (p.buf.getD 3 0).val⟩, Parser.fresh) ∧
    p.take_raw = (p.buf, Parser.fresh) ∧
    p.take.2.take = (Except.error TakeError.frame_incomplete, Parser.fresh) ∧
    p.take.2.take_raw = ([], Parser.fresh) ∧
    p.take_raw.2.take = (Except.error TakeError.frame_incomplete, Parser.fresh) ∧
    p.take_raw.2.take_raw = ([], Parser.fresh) ∧
    Parser.fresh = ⟨State.SEEK_STX, [], 0⟩ ∧
    (∀ q : Parser,
      (match q.take.1 with
        | Except.ok _ => q.take.2 = Parser.fresh
        | Except.error _ => q.take.2 = q) ∧
      q.take_raw.2 = Parser.fresh) := by
  have ht : p.take = (Except.ok ⟨p.buf.getD 1 0, p.buf.getD 2 0,
      (p.buf.drop 4).take (p.buf.getD 3 0).val⟩, Parser.fresh) := by
    rcases take_of_inv p (inv_of_reachable p hr) with ⟨_, h1⟩ | ⟨h2, _⟩ | ⟨h3, _⟩
    · exact h1
    · exact absurd hs h2
    · rw [hs] at h3
      exact absurd h3 (by simp)
  have h2 : p.take.2 = Parser.fresh := by rw [ht]
  have h3 : p.take_raw.2 = Parser.fresh := rfl
  refine ⟨ht, rfl, ?_, ?_, ?_, ?_, rfl, ?_⟩
  · rw [h2]
    rfl
  · rw [h2]
    rfl
  · rw [h3]
    rfl
  · rw [h3]
    rfl
  · intro q
    refine ⟨?_, rfl⟩
    obtain ⟨st, buf, need⟩ := q
    rw [take_mk]
    split_ifs <;> rfl

/-- Witness of C10: the parser that holds the completed ROM-version request. -/
theorem C10_extraction_resets_witness :
    Reachable completed_rom ∧ completed_rom.st = State.FOOTER ∧
    (completed_rom.take = (Except.ok ⟨completed_rom.buf.getD 1 0, completed_rom.buf.getD 2 0,
          (completed_rom.buf.drop 4).take (completed_rom.buf.getD 3 0).val⟩, Parser.fresh) ∧
      completed_rom.take_raw = (completed_rom.buf, Parser.fresh) ∧
      completed_rom.take.2.take = (Except.error TakeError.frame_incomplete, Parser.fresh) ∧
      completed_rom.take.2.take_raw = ([], Parser.fresh) ∧
      completed_rom.take_raw.2.take = (Except.error TakeError.frame_incomplete, Parser.fresh) ∧
      completed_rom.take_raw.2.take_raw = ([], Parser.fresh) ∧
      Parser.fresh = ⟨State.SEEK_STX, [], 0⟩ ∧
      (∀ q : Parser,
        (match q.take.1 with
          | Except.ok _ => q.take.2 = Parser.fresh
          | Except.error _ => q.take.2 = q) ∧
        q.take_raw.2 = Parser.fresh)) :=
  have hr : Reachable completed_rom := reachable_feed _ _ Reachable.fresh
  ⟨hr, by decide, C10_extraction_resets completed_rom hr (by decide)⟩

/-- C11, the claim fails on the code. The parser that completed the ROM-version request gives
one extraction only: after `take()` its `take_raw()` returns the empty sequence, and after
`take_raw()` its `take()` throws. -/
theorem C11_second_extraction_is_empty :
    before_last_byte.push 0x0D = (completed_rom, true) ∧
    completed_rom.take.1 = Except.ok ⟨0x00, 0x4F, [0x90]⟩ ∧
    completed_rom.take.2.take_raw.1 = [] ∧
    completed_rom.take_raw.1 = [0x02, 0x00, 0x4F, 0x01, 0x90, 0x03, 0xE5, 0x0D] ∧
    completed_rom.take_raw.2.take.1 = Except.error TakeError.frame_incomplete :=
  ⟨by decide, rfl, by decide, by decide, rfl⟩

/-- C11 as amended. After a `push` that returned true (in any state a fresh parser can reach),
that parser gives either representation, but only the one asked for first: `take_raw()` returns
the buffered wire bytes and `take()` the address, command and payload in them, and each leaves a
fresh parser, on which `take()` throws and `take_raw()` returns the empty sequence. The other
representation is obtained without the transport, as `transact` does it: the raw bytes fed to a
second fresh parser make its `take()` return the structured frame of those bytes. -/
theorem C11_one_extraction_then_reparse (p : Parser) (b : Byte) (hr : Reachable p)
    (ht : (p.push b).2 = true) :
    (p.push b).1.take_raw = ((p.push b).1.buf, Parser.fresh) ∧
    (p.push b).1.take
      = (Except.ok ⟨(p.push b).1.buf.getD 1 0, (p.push b).1.buf.getD 2 0,
          ((p.push b).1.buf.drop 4).take ((p.push b).1.buf.getD 3 0).val⟩, Parser.fresh) ∧
    Parser.fresh.take = (Except.error TakeError.frame_incomplete, Parser.fresh) ∧
    Parser.fresh.take_raw = ([], Parser.fresh) ∧
    (Parser.fresh.feed (p.push b).1.take_raw.1).1.take
      = (Except.ok ⟨(p.push b).1.buf.getD 1 0, (p.push b).1.buf.getD 2 0,
          ((p.push b).1.buf.drop 4).take ((p.push b).1.buf.getD 3 0).val⟩, Parser.fresh) := by
  have hi := inv_push p b (inv_of_reachable p hr)
  obtain ⟨hst, _, _⟩ := push_true_state p b ht
  generalize (p.push b).1 = q at hi hst ⊢
  obtain ⟨st, buf, need⟩ := q
  change st = State.FOOTER at hst
  subst hst
  rw [inv_footer] at hi
  have hw := hi.1
  refine ⟨rfl, ?_, rfl, rfl, ?_⟩
  · rcases take_of_inv ⟨State.FOOTER, buf, need⟩ ((inv_footer buf need).2 hi)
      with ⟨_, h1⟩ | ⟨h2, _⟩ | ⟨h3, _⟩
    · exact h1
    · exact absurd rfl h2
    · exact absurd h3 (by simp)
  · exact second_parse buf hw

/-- Witness of the amended C11: the parser that holds `02 00 4F 01 90 03 E5` receives `0D`. -/
theorem C11_one_extraction_then_reparse_witness :
    Reachable before_last_byte ∧ (before_last_byte.push 0x0D).2 = true ∧
    ((before_last_byte.push 0x0D).1.take_raw
        = ((before_last_byte.push 0x0D).1.buf, Parser.fresh) ∧
      (before_last_byte.push 0x0D).1.take
        = (Except.ok ⟨(before_last_byte.push 0x0D).1.buf.getD 1 0,
            (before_last_byte.push 0x0D).1.buf.getD 2 0,
            ((before_last_byte.push 0x0D).1.buf.drop 4).take
              ((before_last_byte.push 0x0D).1.buf.getD 3 0).val⟩, Parser.fresh) ∧
      Parser.fresh.take = (Except.error TakeError.frame_incomplete, Parser.fresh) ∧
      Parser.fresh.take_raw = ([], Parser.fresh) ∧
      (Parser.fresh.feed (before_last_byte.push 0x0D).1.take_raw.1).1.take
        = (Except.ok ⟨(before_last_byte.push 0x0D).1.buf.getD 1 0,
            (before_last_byte.push 0x0D).1.buf.getD 2 0,
            ((before_last_byte.push 0x0D).1.buf.drop 4).take
              ((before_last_byte.push 0x0D).1.buf.getD 3 0).val⟩, Parser.fresh)) :=
  have hr : Reachable before_last_byte := reachable_feed _ _ Reachable.fresh
  ⟨hr, by decide, C11_one_extraction_then_reparse before_last_byte 0x0D hr (by decide)⟩

/-- C12 (reply matches raw). The raw bytes that `take_raw()` returns right after a `push` that
returned true (in any state a fresh parser can reach) are a checksum-valid wire frame; fed to a
second fresh parser they end in the completed state and its `take()` returns the address,
command and payload in them. So every `Reply` that `transact` or `receive_only` returns has
`cmd = raw[2]`, `|data| = raw[3]`, `data = raw[4 .. 4 + raw[3])`, and `raw` is a wire frame. -/
theorem C12_reply_matches_raw :
    (∀ (p : Parser) (b : Byte), Reachable p → (p.push b).2 = true →
      WireFrame (p.push b).1.take_raw.1 ∧
      (Parser.fresh.feed (p.push b).1.take_raw.1).1.st = State.FOOTER ∧
      (Parser.fresh.feed (p.push b).1.take_raw.1).1.take.1
        = Except.ok ⟨(p.push b).1.take_raw.1.getD 1 0, (p.push b).1.take_raw.1.getD 2 0,
            ((p.push b).1.take_raw.1.drop 4).take ((p.push b).1.take_raw.1.getD 3 0).val⟩) ∧
    (∀ (send_ok : Nat → Bool) (frame : List Byte) (retries : Int) (recvs : List Recv)
      (rep : Client.Reply),
      (Client.transact send_ok frame retries recvs).1 = Outcome.reply rep →
      WireFrame rep.raw ∧ rep.cmd = rep.raw.getD 2 0 ∧
        rep.data.length = (rep.raw.getD 3 0).val ∧
        rep.data = (rep.raw.drop 4).take (rep.raw.getD 3 0).val) ∧
    (∀ (recvs : List Recv) (rep : Client.Reply),
      (Client.receive_only recvs).1 = Outcome.reply rep →
      WireFrame rep.raw ∧ rep.cmd = rep.raw.getD 2 0 ∧
        rep.data.length = (rep.raw.getD 3 0).val ∧
        rep.data = (rep.raw.drop 4).take (rep.raw.getD 3 0).val) := by
  refine ⟨?_, ?_, ?_⟩
  · intro p b hr ht
    have hw := wire_of_push_true p b (inv_of_reachable p hr) ht
    have hraw : (p.push b).1.take_raw.1 = (p.push b).1.buf := rfl
    rw [hraw]
    generalize (p.push b).1.buf = raw at hw
    refine ⟨hw, ?_, ?_⟩
    · rw [feed_wireFrame raw hw]
    · rw [second_parse raw hw]
  · intro send_ok frame retries recvs rep h
    unfold Client.transact at h
    split at h
    · exact loop_reply_matches send_ok frame recvs Parser.fresh retries [frame] rep inv_fresh h
    · simp at h
  · intro recvs rep h
    exact ro_reply_matches recvs Parser.fresh rep inv_fresh h

/-- Witness of C12: the reply that `transact` returns when the ROM-version frame comes back. -/
theorem C12_reply_matches_raw_witness :
    (Client.transact sends_succeed rom_frame.encode 1 (rom_frame.encode.map Recv.byte)).1
      = Outcome.reply ⟨0x4F, [0x90], rom_frame.encode⟩ ∧
    (WireFrame rom_frame.encode ∧ (0x4F : Byte) = rom_frame.encode.getD 2 0 ∧
      ([0x90] : List Byte).length = (rom_frame.encode.getD 3 0).val ∧
      ([0x90] : List Byte) = (rom_frame.encode.drop 4).take (rom_frame.encode.getD 3 0).val) :=
  ⟨by decide,
    C12_reply_matches_raw.2.1 sends_succeed rom_frame.encode 1
      (rom_frame.encode.map Recv.byte) ⟨0x4F, [0x90], rom_frame.encode⟩ (by decide)⟩

/-- C13 (retry then success). With every `send` succeeding, `retries = r`, and a transport that
reports `k <= r` timeouts and then delivers the bytes of an encoded frame `f` (payload at most
255 bytes), `transact` hands the unchanged `frame` to `send` exactly `k + 1` times and returns
the reply decoded from `f`: its command, its payload, and `raw = f`. What the transport would
deliver afterwards is not read. -/
theorem C13_retry_then_success (send_ok : Nat → Bool) (frame : List Byte) (f : Frame)
    (r k : Nat) (rest : List Recv) (hs : ∀ i, send_ok i = true) (hf : f.data.length ≤ 255)
    (hk : k ≤ r) :
    Client.transact send_ok frame r
        (List.replicate k Recv.timed_out ++ f.encode.map Recv.byte ++ rest)
      = (Outcome.reply ⟨f.cmd, f.data, f.encode⟩, List.replicate (k + 1) frame) := by
  have hw : ∀ x ∈ List.replicate k Recv.timed_out, x = Recv.timed_out ∨ x = Recv.closed :=
    fun x hx => Or.inl (List.eq_of_mem_replicate hx)
  have e1 := loop_retries send_ok frame hs (List.replicate k Recv.timed_out) hw Parser.fresh r
    [frame] (f.encode.map Recv.byte ++ rest) (by simp; omega)
  have e2 := loop_bytes_complete send_ok frame f.encode Parser.fresh _ _
    ((r : Int) - (List.replicate k Recv.timed_out).length)
    ([frame] ++ List.replicate (List.replicate k Recv.timed_out).length frame) rest
    (feed_encode f hf)
  unfold Client.transact
  rw [hs, if_pos rfl, List.append_assoc, e1, e2, decode_raw_encode f hf]
  simp [List.replicate_succ]

/-- Witness of C13: `retries = 2`, two timeouts, then the ROM-version frame: three sends. -/
theorem C13_retry_then_success_witness :
    (∀ i, sends_succeed i = true) ∧ rom_frame.data.length ≤ 255 ∧ 2 ≤ 2 ∧
    Client.transact sends_succeed rom_frame.encode (2 : Nat)
        (List.replicate 2 Recv.timed_out ++ rom_frame.encode.map Recv.byte ++ [])
      = (Outcome.reply ⟨rom_frame.cmd, rom_frame.data, rom_frame.encode⟩,
          List.replicate (2 + 1) rom_frame.encode) :=
  ⟨fun _ => rfl, by decide, by decide,
    C13_retry_then_success sends_succeed rom_frame.encode rom_frame 2 2 [] (fun _ => rfl)
      (by decide) (by decide)⟩

/-- C14 (retry exhaustion). With every `send` succeeding and `retries = r`, a transport whose
first `r + 1` receives each report a timeout or a closure makes `transact` throw
`NetError("recv timeout")` after handing `frame` to `send` exactly `r + 1` times (once when
`r = 0`). On every transport, also one whose sends fail, `transact` hands nothing but `frame` to
`send`, and at most `r + 1` times. -/
theorem C14_retry_exhaustion (send_ok : Nat → Bool) (frame : List Byte) (r : Nat)
    (w rest : List Recv) (hs : ∀ i, send_ok i = true)
    (hw : ∀ x ∈ w, x = Recv.timed_out ∨ x = Recv.closed) (hl : w.length = r + 1) :
    Client.transact send_ok frame r (w ++ rest)
      = (Outcome.net_error NetError.recv_timeout, List.replicate (r + 1) frame) ∧
    (∀ (so : Nat → Bool) (recvs : List Recv),
      (Client.transact so frame r recvs).2.length ≤ r + 1 ∧
      ∀ s ∈ (Client.transact so frame r recvs).2, s = frame) := by
  refine ⟨?_, ?_⟩
  · have e := loop_exhaust send_ok frame hs w hw Parser.fresh r [frame] rest (by omega)
    unfold Client.transact
    rw [hs, if_pos rfl, e]
    simp [List.replicate_succ]
  · intro so recvs
    unfold Client.transact
    split
    · have h := loop_sends_bound so frame recvs Parser.fresh r r [frame] (le_refl _)
      refine ⟨?_, ?_⟩
      · have h1 := h.1
        simp only [List.length_cons, List.length_nil] at h1
        omega
      · intro s hs2
        rcases h.2 s hs2 with h2 | h2
        · simpa using h2
        · exact h2
    · exact ⟨by simp, fun s hs2 => by simpa using hs2⟩

/-- Witness of C14: `retries = 0` and a transport that times out at once: one send. -/
theorem C14_retry_exhaustion_witness :
    (∀ i, sends_succeed i = true) ∧
    (∀ x ∈ [Recv.timed_out], x = Recv.timed_out ∨ x = Recv.closed) ∧
    [Recv.timed_out].length = 0 + 1 ∧
    (Client.transact sends_succeed rom_frame.encode (0 : Nat) ([Recv.timed_out] ++ [])
        = (Outcome.net_error NetError.recv_timeout, List.replicate (0 + 1) rom_frame.encode) ∧
      (∀ (so : Nat → Bool) (recvs : List Recv),
        (Client.transact so rom_frame.encode (0 : Nat) recvs).2.length ≤ 0 + 1 ∧
        ∀ s ∈ (Client.transact so rom_frame.encode (0 : Nat) recvs).2,
          s = rom_frame.encode)) :=
  have hw : ∀ x ∈ [Recv.timed_out], x = Recv.timed_out ∨ x = Recv.closed := by
    intro x hx
    simp only [List.mem_singleton] at hx
    exact Or.inl hx
  ⟨fun _ => rfl, hw, rfl,
    C14_retry_exhaustion sends_succeed rom_frame.encode 0 [Recv.timed_out] []
      (fun _ => rfl) hw rfl⟩

/-- C15 (`receive_only` never sends and never retries). Let the receives before the first
timeout or closure be bytes and other errors only, with no frame completed by those bytes.
Then `receive_only` throws `NetError("recv timeout (receive_only)")` at that timeout or closure,
whatever was received before and whatever would come after. On every transport `receive_only`
hands nothing to `send`. -/
theorem C15_receive_only_fails_at_first_timeout (pre : List Recv) (x : Recv)
    (rest : List Recv) (hx : x = Recv.timed_out ∨ x = Recv.closed)
    (hpre : ∀ y ∈ pre, y ≠ Recv.timed_out ∧ y ≠ Recv.closed)
    (hno : ∀ v ∈ (Parser.fresh.feed (received_bytes pre)).2, v = false) :
    Client.receive_only (pre ++ x :: rest)
      = (Outcome.net_error NetError.recv_timeout_receive_only, []) ∧
    (∀ recvs : List Recv, (Client.receive_only recvs).2 = []) := by
  refine ⟨?_, fun _ => rfl⟩
  unfold Client.receive_only
  rw [ro_first_timeout pre Parser.fresh x rest hx hpre hno]

/-- Witness of C15: seven of the eight bytes of the ROM-version frame arrive, then a timeout. -/
theorem C15_receive_only_fails_at_first_timeout_witness :
    (Recv.timed_out = Recv.timed_out ∨ Recv.timed_out = Recv.closed) ∧
    (∀ y ∈ almost_all_received, y ≠ Recv.timed_out ∧ y ≠ Recv.closed) ∧
    (∀ v ∈ (Parser.fresh.feed (received_bytes almost_all_received)).2, v = false) ∧
    (Client.receive_only (almost_all_received ++ Recv.timed_out :: [Recv.byte 0x0D])
        = (Outcome.net_error NetError.recv_timeout_receive_only, []) ∧
      (∀ recvs : List Recv, (Client.receive_only recvs).2 = [])) :=
  have hpre : ∀ y ∈ almost_all_received, y ≠ Recv.timed_out ∧ y ≠ Recv.closed := by decide
  have hno : ∀ v ∈ (Parser.fresh.feed (received_bytes almost_all_received)).2, v = false := by
    decide
  ⟨Or.inl rfl, hpre, hno,
    C15_receive_only_fails_at_first_timeout almost_all_received Recv.timed_out
      [Recv.byte 0x0D] (Or.inl rfl) hpre hno⟩

/-- C16, evaluated at a failing input. `retries = 1`; the transport delivers the byte `02`,
then times out, and after the resend delivers the whole ROM-version frame. The parser of the
call still holds the `02` from before the timeout, so the frame is read as the middle of a
longer one: `transact` is left waiting inside `recv`, and when the next receive times out it
throws `NetError("recv timeout")` instead of returning the reply. -/
theorem C16_stale_bytes_survive_retry :
    Client.transact sends_succeed rom_frame.encode 1
        ([Recv.byte 0x02, Recv.timed_out] ++ rom_frame.encode.map Recv.byte)
      = (Outcome.blocked, [rom_frame.encode, rom_frame.encode]) ∧
    Client.transact sends_succeed rom_frame.encode 1
        ([Recv.byte 0x02, Recv.timed_out] ++ rom_frame.encode.map Recv.byte
          ++ [Recv.timed_out])
      = (Outcome.net_error NetError.recv_timeout, [rom_frame.encode, rom_frame.encode]) ∧
    Client.transact sends_succeed rom_frame.encode 1
        ([Recv.timed_out] ++ rom_frame.encode.map Recv.byte)
      = (Outcome.reply ⟨0x4F, [0x90], rom_frame.encode⟩,
          [rom_frame.encode, rom_frame.encode]) := by
  decide

/-- C17 (parser state invariant). In every state a fresh parser can reach through `push`,
`take`, `take_raw` and `reset`: in `SEEK_STX` the buffer is empty and `need_ = 0`; in `HEADER`
the buffer starts with STX, `1 <= need_ <= 3` and `|buf| + need_ = 4`; in `PAYLOAD`
`|buf| >= 4`, `need_ >= 1` and `|buf| + need_ = buf[3] + 7`; in `FOOTER` `|buf| = buf[3] + 7`.
In every such state the buffer holds at most 262 bytes. -/
theorem C17_parser_state_invariant (p : Parser) (hr : Reachable p) :
    (p.st = State.SEEK_STX → p.buf = [] ∧ p.need = 0) ∧
    (p.st = State.HEADER →
      p.buf.head? = some STX ∧ 1 ≤ p.need ∧ p.need ≤ 3 ∧ p.buf.length + p.need = 4) ∧
    (p.st = State.PAYLOAD →
      4 ≤ p.buf.length ∧ 1 ≤ p.need ∧ p.buf.length + p.need = (p.buf.getD 3 0).val + 7) ∧
    (p.st = State.FOOTER → p.buf.length = (p.buf.getD 3 0).val + 7) ∧
    p.buf.length ≤ 262 := by
  have hi := inv_of_reachable p hr
  have hle := inv_length_le p hi
  obtain ⟨st, buf, need⟩ := p
  refine ⟨?_, ?_, ?_, ?_, hle⟩
  · intro hs
    change st = State.SEEK_STX at hs
    subst hs
    exact (inv_seek buf need).1 hi
  · intro hs
    change st = State.HEADER at hs
    subst hs
    exact (inv_header buf need).1 hi
  · intro hs
    change st = State.PAYLOAD at hs
    subst hs
    exact ((inv_payload buf need).1 hi).2
  · intro hs
    change st = State.FOOTER at hs
    subst hs
    exact ((inv_footer buf need).1 hi).1.2.1

/-- Witness of C17: a parser in the middle of a payload. -/
theorem C17_parser_state_invariant_witness :
    Reachable mid_payload ∧
    ((mid_payload.st = State.SEEK_STX → mid_payload.buf = [] ∧ mid_payload.need = 0) ∧
      (mid_payload.st = State.HEADER →
        mid_payload.buf.head? = some STX ∧ 1 ≤ mid_payload.need ∧ mid_payload.need ≤ 3 ∧
          mid_payload.buf.length + mid_payload.need = 4) ∧
      (mid_payload.st = State.PAYLOAD →
        4 ≤ mid_payload.buf.length ∧ 1 ≤ mid_payload.need ∧
          mid_payload.buf.length + mid_payload.need = (mid_payload.buf.getD 3 0).val + 7) ∧
      (mid_payload.st = State.FOOTER →
        mid_payload.buf.length = (mid_payload.buf.getD 3 0).val + 7) ∧
      mid_payload.buf.length ≤ 262) :=
  have hr : Reachable mid_payload := reachable_feed _ _ Reachable.fresh
  ⟨hr, C17_parser_state_invariant mid_payload hr⟩

/-- C18 (frame decision point). A fresh parser is fed STX, `a`, `c`, `l`, then `l` bytes
`data`, then three bytes `e`, `s`, `z`. `push` returns false on each of the first `l + 6` bytes
whatever they are; on the last byte it returns true exactly when `z` is CR, `e` is ETX and `s`
is the sum of all bytes before it modulo 256. Then the whole sequence is buffered in the
completed state; otherwise the parser is as freshly constructed. `push` has no failure. -/
theorem C18_frame_decision_point (a c l : Byte) (data : List Byte) (e s z : Byte)
    (hl : data.length = l.val) :
    (Parser.fresh.feed ([STX, a, c, l] ++ data ++ [e, s, z])).2
      = List.replicate (l.val + 6) false
        ++ [decide (z = CR ∧ e = ETX ∧ s = sum_mod_256 ([STX, a, c, l] ++ data ++ [e]))] ∧
    ((z = CR ∧ e = ETX ∧ s = sum_mod_256 ([STX, a, c, l] ++ data ++ [e])) →
      (Parser.fresh.feed ([STX, a, c, l] ++ data ++ [e, s, z])).1
        = ⟨State.FOOTER, [STX, a, c, l] ++ data ++ [e, s, z], 0⟩) ∧
    (¬ (z = CR ∧ e = ETX ∧ s = sum_mod_256 ([STX, a, c, l] ++ data ++ [e])) →
      (Parser.fresh.feed ([STX, a, c, l] ++ data ++ [e, s, z])).1 = Parser.fresh) := by
  have hc := feed_candidate a c l data e s z hl
  rw [calc_sum_eq] at hc
  change _ = if z = CR ∧ e = ETX ∧ s = sum_mod_256 ([STX, a, c, l] ++ data ++ [e]) then _
    else _ at hc
  by_cases hok : z = CR ∧ e = ETX ∧ s = sum_mod_256 ([STX, a, c, l] ++ data ++ [e])
  · rw [if_pos hok] at hc
    rw [hc, decide_eq_true hok]
    exact ⟨rfl, fun _ => rfl, fun hn => absurd hok hn⟩
  · rw [if_neg hok] at hc
    rw [hc, decide_eq_false hok]
    exact ⟨rfl, fun hy => absurd hy hok, fun _ => rfl⟩

/-- Witness of C18: the ROM-version request, `l = 1`, `data = [90]`, footer `03 E5 0D`. -/
theorem C18_frame_decision_point_witness :
    ([0x90] : List Byte).length = (0x01 : Byte).val ∧
    ((Parser.fresh.feed ([STX, 0x00, 0x4F, 0x01] ++ [0x90] ++ [0x03, 0xE5, 0x0D])).2
        = List.replicate ((0x01 : Byte).val + 6) false
          ++ [decide ((0x0D : Byte) = CR ∧ (0x03 : Byte) = ETX ∧
              (0xE5 : Byte) = sum_mod_256 ([STX, 0x00, 0x4F, 0x01] ++ [0x90] ++ [0x03]))] ∧
      (((0x0D : Byte) = CR ∧ (0x03 : Byte) = ETX ∧
          (0xE5 : Byte) = sum_mod_256 ([STX, 0x00, 0x4F, 0x01] ++ [0x90] ++ [0x03])) →
        (Parser.fresh.feed ([STX, 0x00, 0x4F, 0x01] ++ [0x90] ++ [0x03, 0xE5, 0x0D])).1
          = ⟨State.FOOTER, [STX, 0x00, 0x4F, 0x01] ++ [0x90] ++ [0x03, 0xE5, 0x0D], 0⟩) ∧
      (¬ ((0x0D : Byte) = CR ∧ (0x03 : Byte) = ETX ∧
          (0xE5 : Byte) = sum_mod_256 ([STX, 0x00, 0x4F, 0x01] ++ [0x90] ++ [0x03])) →
        (Parser.fresh.feed ([STX, 0x00, 0x4F, 0x01] ++ [0x90] ++ [0x03, 0xE5, 0x0D])).1
          = Parser.fresh)) :=
  ⟨rfl, C18_frame_decision_point 0x00 0x4F 0x01 [0x90] 0x03 0xE5 0x0D rfl⟩

/-- C19, the claim fails on the code. A single STX byte before the ROM-version request: `push`
returns false on all nine bytes, the parser is left waiting in the payload state, and
`take_raw()` returns the nine bytes, not the frame. -/
theorem C19_stray_stx_hides_frame :
    Parser.fresh.feed ([0x02] ++ rom_frame.encode)
      = (⟨State.PAYLOAD, [0x02, 0x02, 0x00, 0x4F, 0x01, 0x90, 0x03, 0xE5, 0x0D], 77⟩,
          List.replicate 9 false) ∧
    (Parser.fresh.feed ([0x02] ++ rom_frame.encode)).1.take_raw.1 ≠ rom_frame.encode := by
  decide

/-- C19 as amended. For every byte sequence `g` after which a fresh parser is in `SEEK_STX`
(as it is after bytes without STX, and after frame candidates that failed their checks) and
every encoded frame `f` with a payload of at most 255 bytes, a fresh parser fed `g` and then `f`
returns false on every byte of `f` but the last and true on the last, and `take_raw()` then
returns exactly `f`. -/
theorem C19_frame_after_resync (g : List Byte) (f : Frame)
    (hg : (Parser.fresh.feed g).1.st = State.SEEK_STX) (h : f.data.length ≤ 255) :
    (Parser.fresh.feed (g ++ f.encode)).2
      = (Parser.fresh.feed g).2 ++ (List.replicate (f.encode.length - 1) false ++ [true]) ∧
    (Parser.fresh.feed (g ++ f.encode)).1.take_raw = (f.encode, Parser.fresh) := by
  have hlen : f.encode.length - 1 = f.data.length + 6 := by simp [encode_eq]
  have hq := seek_eq_fresh _ (inv_of_reachable _ (reachable_feed _ g Reachable.fresh)) hg
  have e1 := feed_append Parser.fresh g f.encode
  have e3 := feed_encode f h
  simp only [hq, e3] at e1
  simp only [e1, hlen, take_raw_mk, and_self]

/-- Witness of the amended C19: a rejected frame candidate, which contains an STX, before the
ROM-version request. -/
theorem C19_frame_after_resync_witness :
    (Parser.fresh.feed rejected_candidate).1.st = State.SEEK_STX ∧
    rom_frame.data.length ≤ 255 ∧
    ((Parser.fresh.feed (rejected_candidate ++ rom_frame.encode)).2
        = (Parser.fresh.feed rejected_candidate).2
          ++ (List.replicate (rom_frame.encode.length - 1) false ++ [true]) ∧
      (Parser.fresh.feed (rejected_candidate ++ rom_frame.encode)).1.take_raw
        = (rom_frame.encode, Parser.fresh)) :=
  ⟨by decide, by decide,
    C19_frame_after_resync rejected_candidate rom_frame (by decide) (by decide)⟩

/-- C20 (reentry guard). When the parser holds a completed frame that has not been extracted
(state `FOOTER`), `push` of any byte, STX included, returns false and leaves the parser as
freshly constructed (`SEEK_STX`, empty buffer, `need_ = 0`): the completed frame and the byte
are both gone. -/
theorem C20_push_after_complete_resets (p : Parser) (b : Byte) (h : p.st = State.FOOTER) :
    p.push b = (Parser.fresh, false) ∧ Parser.fresh = ⟨State.SEEK_STX, [], 0⟩ := by
  obtain ⟨st, buf, need⟩ := p
  change st = State.FOOTER at h
  subst h
  exact ⟨push_footer buf need b, rfl⟩

/-- Witness of C20: an STX pushed into the parser that holds the completed ROM-version
request. -/
theorem C20_push_after_complete_resets_witness :
    completed_rom.st = State.FOOTER ∧
    (completed_rom.push STX = (Parser.fresh, false) ∧
      Parser.fresh = ⟨State.SEEK_STX, [], 0⟩) :=
  ⟨by decide, C20_push_after_complete_resets completed_rom STX (by decide)⟩

/-- C21 (single-byte corruption is detected). Take an encoded frame `f` (payload at most 255
bytes) and a position that holds its ADDR (1), its CMD (2) or one of its DATA bytes
(`4 <= pos < 4 + |payload|`), and put any other value there. A fresh parser fed the result
returns false on every byte and is, after the last one, as freshly constructed (`SEEK_STX`,
empty buffer). -/
theorem C21_single_byte_corruption_detected (f : Frame) (pos : Nat) (v : Byte)
    (hf : f.data.length ≤ 255)
    (hpos : pos = 1 ∨ pos = 2 ∨ (4 ≤ pos ∧ pos < 4 + f.data.length))
    (hv : v ≠ f.encode.getD pos 0) :
    (f.encode.set pos v).length = f.encode.length ∧
    Parser.fresh.feed (f.encode.set pos v)
      = (Parser.fresh, List.replicate f.encode.length false) ∧
    Parser.fresh = ⟨State.SEEK_STX, [], 0⟩ := by
  have hlen : f.encode.length = f.data.length + 7 := by simp [encode_eq]
  refine ⟨List.length_set _ _ _, ?_, rfl⟩
  rw [hlen]
  rcases hpos with rfl | rfl | ⟨h4, hlt⟩
  · have g1 : f.encode.getD 1 0 = f.addr := by rw [encode_eq]; rfl
    rw [g1] at hv
    exact feed_bad_addr f v hf hv
  · have g2 : f.encode.getD 2 0 = f.cmd := by rw [encode_eq]; rfl
    rw [g2] at hv
    exact feed_bad_cmd f v hf hv
  · obtain ⟨i, rfl⟩ : ∃ i, pos = 4 + i := ⟨pos - 4, by omega⟩
    have hi : i < f.data.length := by omega
    rw [encode_get_data f i hi] at hv
    exact feed_bad_data f i v hf hi hv

/-- Witness of C21: the data byte `90` of the ROM-version request turned into `91`. -/
theorem C21_single_byte_corruption_detected_witness :
    rom_frame.data.length ≤ 255 ∧
    (4 = 1 ∨ 4 = 2 ∨ (4 ≤ 4 ∧ 4 < 4 + rom_frame.data.length)) ∧
    (0x91 : Byte) ≠ rom_frame.encode.getD 4 0 ∧
    ((rom_frame.encode.set 4 0x91).length = rom_frame.encode.length ∧
      Parser.fresh.feed (rom_frame.encode.set 4 0x91)
        = (Parser.fresh, List.replicate rom_frame.encode.length false) ∧
      Parser.fresh = ⟨State.SEEK_STX, [], 0⟩) :=
  ⟨by decide, by decide, by decide,
    C21_single_byte_corruption_detected rom_frame 4 0x91 (by decide) (by decide) (by decide)⟩

/-- C22 (`calc_sum` is the sum modulo 256). For every list of bytes, of any length, the
`uint32_t` accumulator that wraps modulo `2^32`, masked with `0xFF`, is the unbounded sum of the
bytes modulo 256, and so is the byte `calc_sum` returns; for the empty list that is 0. -/
theorem C22_calc_sum_is_sum_mod_256 (l : List Byte) :
    (l.foldl (fun s b => (s + b.val) % 2 ^ 32) 0) &&& 0xFF = (l.map Fin.val).sum % 256 ∧
    (Frame.calc_sum l).val = (l.map Fin.val).sum % 256 ∧
    Frame.calc_sum [] = 0 := by
  have hmask : ∀ x : Nat, x &&& 0xFF = x % 256 := fun x => Nat.and_pow_two_sub_one_eq_mod x 8
  refine ⟨?_, ?_, rfl⟩
  · rw [hmask, foldl_u32_mod]
    simp
  · rw [calc_sum_eq]
    rfl

/-- C23 (the defensive branches are dead, the reads are in bounds). In every state a fresh
parser can reach, and for every byte pushed next: in `HEADER` and in `PAYLOAD` `need_` is not 0,
so `--need_` does not wrap; when it reaches 0 in `HEADER` the buffer with the new byte has 4
bytes, so the guard `size < HEADER_LEN` is not taken and `buf[3]` exists; when it reaches 0 in
`PAYLOAD` the buffer with the new byte has at least 7 bytes, so the guard
`sz < HEADER_LEN + FOOTER_LEN` is not taken and `buf[sz-1]`, `buf[sz-2]`, `buf[sz-3]` exist.
A `take()` that succeeds reads `buf[1]`, `buf[2]`, `buf[3]` and the data range inside the
buffer. -/
theorem C23_defensive_branches_dead (p : Parser) (b : Byte) (hr : Reachable p) :
    (p.st = State.HEADER →
      p.need ≠ 0 ∧ dec_size_t p.need + 1 = p.need ∧
      (dec_size_t p.need = 0 →
        ¬ (p.buf ++ [b]).length < HEADER_LEN ∧ 3 < (p.buf ++ [b]).length)) ∧
    (p.st = State.PAYLOAD →
      p.need ≠ 0 ∧ dec_size_t p.need + 1 = p.need ∧
      (dec_size_t p.need = 0 →
        ¬ (p.buf ++ [b]).length < HEADER_LEN + FOOTER_LEN ∧ 3 ≤ (p.buf ++ [b]).length ∧
        (p.buf ++ [b]).length - 1 < (p.buf ++ [b]).length ∧
        (p.buf ++ [b]).length - 2 < (p.buf ++ [b]).length ∧
        (p.buf ++ [b]).length - 3 < (p.buf ++ [b]).length)) ∧
    (∀ d q, p.take = (Except.ok d, q) →
      3 < p.buf.length ∧ 4 + (p.buf.getD 3 0).val + 3 ≤ p.buf.length) := by
  have hi := inv_of_reachable p hr
  obtain ⟨st, buf, need⟩ := p
  have hlen : (buf ++ [b]).length = buf.length + 1 := by simp
  refine ⟨?_, ?_, ?_⟩
  · intro hs
    change st = State.HEADER at hs
    subst hs
    rw [inv_header] at hi
    show need ≠ 0 ∧ dec_size_t need + 1 = need ∧ (dec_size_t need = 0 → _)
    obtain ⟨k, rfl⟩ : ∃ k, need = k + 1 := ⟨need - 1, by omega⟩
    rw [dec_size_t_succ, hlen]
    refine ⟨by omega, rfl, fun hk => ?_⟩
    simp only [HEADER_LEN]
    omega
  · intro hs
    change st = State.PAYLOAD at hs
    subst hs
    rw [inv_payload] at hi
    show need ≠ 0 ∧ dec_size_t need + 1 = need ∧ (dec_size_t need = 0 → _)
    obtain ⟨k, rfl⟩ : ∃ k, need = k + 1 := ⟨need - 1, by omega⟩
    rw [dec_size_t_succ, hlen]
    refine ⟨by omega, rfl, fun hk => ?_⟩
    simp only [HEADER_LEN, FOOTER_LEN]
    omega
  · intro d q ht
    rw [take_mk] at ht
    show 3 < buf.length ∧ 4 + (buf.getD 3 0).val + 3 ≤ buf.length
    split at ht
    · simp at ht
    · split at ht
      · simp at ht
      · omega

/-- Witness of C23: the parser that holds `02 00 4F 01 90 03 E5`, where `need_` is 1 and the
next byte brings it to 0. -/
theorem C23_defensive_branches_dead_witness :
    Reachable before_last_byte ∧
    ((before_last_byte.st = State.HEADER →
        before_last_byte.need ≠ 0 ∧ dec_size_t before_last_byte.need + 1 = before_last_byte.need ∧
        (dec_size_t before_last_byte.need = 0 →
          ¬ (before_last_byte.buf ++ [0x0D]).length < HEADER_LEN ∧
          3 < (before_last_byte.buf ++ [0x0D]).length)) ∧
      (before_last_byte.st = State.PAYLOAD →
        before_last_byte.need ≠ 0 ∧ dec_size_t before_last_byte.need + 1 = before_last_byte.need ∧
        (dec_size_t before_last_byte.need = 0 →
          ¬ (before_last_byte.buf ++ [0x0D]).length < HEADER_LEN + FOOTER_LEN ∧
          3 ≤ (before_last_byte.buf ++ [0x0D]).length ∧
          (before_last_byte.buf ++ [0x0D]).length - 1 < (before_last_byte.buf ++ [0x0D]).length ∧
          (before_last_byte.buf ++ [0x0D]).length - 2 < (before_last_byte.buf ++ [0x0D]).length ∧
          (before_last_byte.buf ++ [0x0D]).length - 3
            < (before_last_byte.buf ++ [0x0D]).length)) ∧
      (∀ d q, before_last_byte.take = (Except.ok d, q) →
        3 < before_last_byte.buf.length ∧
        4 + (before_last_byte.buf.getD 3 0).val + 3 ≤ before_last_byte.buf.length)) :=
  have hr : Reachable before_last_byte := reachable_feed _ _ Reachable.fresh
  ⟨hr, C23_defensive_branches_dead before_last_byte 0x0D hr⟩

/-- C24 (`take_raw` has no readiness check). In every state a fresh parser can reach in which
no frame is complete, `take_raw()` returns the bytes buffered so far and leaves a parser equal
to a freshly constructed one: nothing in `SEEK_STX`, one to three bytes starting with STX in
`HEADER`, four or more bytes starting with STX but fewer than the frame needs in `PAYLOAD`. The
function has no failure. -/
theorem C24_take_raw_without_complete_frame (p : Parser) (hr : Reachable p)
    (hn : p.st ≠ State.FOOTER) :
    p.take_raw = (p.buf, Parser.fresh) ∧
    (p.st = State.SEEK_STX → p.take_raw.1 = []) ∧
    (p.st = State.HEADER →
      p.take_raw.1.head? = some STX ∧ 1 ≤ p.take_raw.1.length ∧ p.take_raw.1.length ≤ 3) ∧
    (p.st = State.PAYLOAD →
      p.take_raw.1.head? = some STX ∧ 4 ≤ p.take_raw.1.length ∧
      p.take_raw.1.length < (p.take_raw.1.getD 3 0).val + 7) := by
  have hi := inv_of_reachable p hr
  obtain ⟨st, buf, need⟩ := p
  refine ⟨rfl, ?_, ?_, ?_⟩
  · intro hs
    change st = State.SEEK_STX at hs
    subst hs
    exact ((inv_seek buf need).1 hi).1
  · intro hs
    change st = State.HEADER at hs
    subst hs
    rw [inv_header] at hi
    show buf.head? = some STX ∧ 1 ≤ buf.length ∧ buf.length ≤ 3
    exact ⟨hi.1, by omega, by omega⟩
  · intro hs
    change st = State.PAYLOAD at hs
    subst hs
    rw [inv_payload] at hi
    show buf.head? = some STX ∧ 4 ≤ buf.length ∧ buf.length < (buf.getD 3 0).val + 7
    exact ⟨hi.1, hi.2.1, by omega⟩

/-- Witness of C24: a parser in the middle of a payload. -/
theorem C24_take_raw_without_complete_frame_witness :
    Reachable mid_payload ∧ mid_payload.st ≠ State.FOOTER ∧
    (mid_payload.take_raw = (mid_payload.buf, Parser.fresh) ∧
      (mid_payload.st = State.SEEK_STX → mid_payload.take_raw.1 = []) ∧
      (mid_payload.st = State.HEADER →
        mid_payload.take_raw.1.head? = some STX ∧ 1 ≤ mid_payload.take_raw.1.length ∧
        mid_payload.take_raw.1.length ≤ 3) ∧
      (mid_payload.st = State.PAYLOAD →
        mid_payload.take_raw.1.head? = some STX ∧ 4 ≤ mid_payload.take_raw.1.length ∧
        mid_payload.take_raw.1.length < (mid_payload.take_raw.1.getD 3 0).val + 7)) :=
  have hr : Reachable mid_payload := reachable_feed _ _ Reachable.fresh
  ⟨hr, by decide, C24_take_raw_without_complete_frame mid_payload hr (by decide)⟩

/-- C25 (a failed `take` is atomic). When `take()` throws, the parser it leaves is the parser it
found (`st_`, `buf_` and `need_` unchanged), so every byte pushed afterwards, and every sequence
of bytes, has the effect and the result it would have had without the call. -/
theorem C25_failed_take_is_atomic (p : Parser) (e : TakeError)
    (h : p.take.1 = Except.error e) :
    p.take.2 = p ∧
    (∀ b : Byte, p.take.2.push b = p.push b) ∧
    (∀ bs : List Byte, p.take.2.feed bs = p.feed bs) := by
  have hq : p.take.2 = p := by
    obtain ⟨st, buf, need⟩ := p
    rw [take_mk] at h ⊢
    split at h
    · rw [if_pos ‹_›]
    · rw [if_neg ‹_›]
      split at h
      · rw [if_pos ‹_›]
      · simp at h
  refine ⟨hq, fun b => ?_, fun bs => ?_⟩
  · rw [hq]
  · rw [hq]

/-- Witness of C25: `take()` in the middle of a payload, with seven bytes buffered. -/
theorem C25_failed_take_is_atomic_witness :
    mid_payload.take.1 = Except.error TakeError.length_mismatch ∧
    (mid_payload.take.2 = mid_payload ∧
      (∀ b : Byte, mid_payload.take.2.push b = mid_payload.push b) ∧
      (∀ bs : List Byte, mid_payload.take.2.feed bs = mid_payload.feed bs)) :=
  ⟨rfl, C25_failed_take_is_atomic mid_payload TakeError.length_mismatch rfl⟩

/-- C26 (hard receive errors are ignored). In the loops of `transact` and `receive_only` a
`recv` that fails with an error other than a timeout changes nothing: the parser, the retry
counter and the frames sent are the same in the next round. So both calls end as they would on
the transport with those outcomes left out, and on a transport that reports nothing else they
are, after any number of receives, still waiting: no reply, no exception, no resend. -/
theorem C26_hard_errors_are_ignored (send_ok : Nat → Bool) (frame : List Byte)
    (retries : Int) (recvs : List Recv) (n : Nat) :
    (∀ (p : Parser) (sent : List (List Byte)) (rest : List Recv),
      Client.transact_loop send_ok frame p retries sent (Recv.failed :: rest)
        = Client.transact_loop send_ok frame p retries sent rest) ∧
    (∀ (p : Parser) (rest : List Recv),
      Client.receive_only_loop p (Recv.failed :: rest) = Client.receive_only_loop p rest) ∧
    Client.transact send_ok frame retries recvs
      = Client.transact send_ok frame retries
          (recvs.filter (fun x => decide (x ≠ Recv.failed))) ∧
    Client.receive_only recvs
      = Client.receive_only (recvs.filter (fun x => decide (x ≠ Recv.failed))) ∧
    Client.transact send_ok frame retries (List.replicate n Recv.failed)
      = (if send_ok 0 then (Outcome.blocked, [frame])
          else (Outcome.net_error NetError.send_failed, [frame])) ∧
    Client.receive_only (List.replicate n Recv.failed) = (Outcome.blocked, []) := by
  refine ⟨fun p sent rest => loop_failed send_ok frame p retries sent rest,
    fun p rest => ro_failed p rest, ?_, ?_, ?_, ?_⟩
  · unfold Client.transact
    split
    · exact loop_skip_failed send_ok frame recvs Parser.fresh retries [frame]
    · rfl
  · unfold Client.receive_only
    rw [ro_skip_failed recvs Parser.fresh]
  · unfold Client.transact
    split
    · exact loop_only_failed send_ok frame n Parser.fresh retries [frame]
    · rfl
  · unfold Client.receive_only
    rw [ro_only_failed n Parser.fresh]

end tr3
